import Mathlib

/-!
Verification development for the `floq` Floquet-engine core
(`floq/core/evolution.py`).

Numbers: the Python code computes with complex floating-point values.  We
embed them as exact complex rationals (`CC` below, a pair of `ℚ`), and treat
the complex exponential `np.exp` as an explicit function parameter `cexp`
wherever the code applies it, so that every definition stays executable and
theorems quantify over any exponential-like function (in particular the true
one).

Failure: Python exceptions are embedded with `Except PyErr`; an out-of-range
`numpy` scalar index raises `PyErr.indexError`, the explicit
`raise RuntimeError` in `first_brillouin_zone` is `PyErr.runtimeError`,
the `None.shape` failure in `du_dcontrols` is `PyErr.capabilityError`, and
a `numpy` broadcast shape mismatch (as in `current_floquet_kets` on a
bundle whose `fourier_modes` axis disagrees with the eigenvector tensor)
is `PyErr.valueError`.
`numpy` negative-index wraparound is modelled faithfully (`pyGet`), as are
Python slice-clamping semantics (`pySlice`).
-/

namespace Floq

/-- Complex numbers with exact rational real and imaginary parts; the shallow
embedding of the `complex128` values of the code. -/
@[ext]
structure CC where
  re : ℚ
  im : ℚ
deriving DecidableEq, Repr

namespace CC

instance : Zero CC := ⟨⟨0, 0⟩⟩
instance : One CC := ⟨⟨1, 0⟩⟩
instance : Add CC := ⟨fun z w => ⟨z.re + w.re, z.im + w.im⟩⟩
instance : Neg CC := ⟨fun z => ⟨-z.re, -z.im⟩⟩
instance : Sub CC := ⟨fun z w => ⟨z.re - w.re, z.im - w.im⟩⟩
instance : Mul CC := ⟨fun z w => ⟨z.re * w.re - z.im * w.im,
                                  z.re * w.im + z.im * w.re⟩⟩

/-- The imaginary unit `1j`. -/
def I : CC := ⟨0, 1⟩

/-- Embedding of a real (rational) scalar into `CC`. -/
def ofQ (q : ℚ) : CC := ⟨q, 0⟩

/-- Complex conjugation (`np.conj`). -/
def conj (z : CC) : CC := ⟨z.re, -z.im⟩

/-- Complex inverse: `conj z` scaled by the squared norm (zero maps to
zero, the Lean convention for a total inverse). -/
def inv (z : CC) : CC :=
  ⟨z.re / (z.re * z.re + z.im * z.im), -z.im / (z.re * z.re + z.im * z.im)⟩

instance : Div CC := ⟨fun z w => z * w.inv⟩

theorem zero_def : (0 : CC) = ⟨0, 0⟩ := rfl

theorem one_def : (1 : CC) = ⟨1, 0⟩ := rfl

theorem add_def (z w : CC) : z + w = ⟨z.re + w.re, z.im + w.im⟩ := rfl

theorem neg_def (z : CC) : -z = ⟨-z.re, -z.im⟩ := rfl

theorem sub_def (z w : CC) : z - w = ⟨z.re - w.re, z.im - w.im⟩ := rfl

theorem div_def (z w : CC) : z / w = z * w.inv := rfl

theorem mul_def (z w : CC) :
    z * w = ⟨z.re * w.re - z.im * w.im, z.re * w.im + z.im * w.re⟩ := rfl

instance : AddCommMonoid CC where
  add_assoc a b c := by ext <;> simp [add_def] <;> ring
  add_comm a b := by ext <;> simp [add_def] <;> ring
  zero_add a := by ext <;> simp [add_def, zero_def]
  add_zero a := by ext <;> simp [add_def, zero_def]
  nsmul := nsmulRec

@[simp] theorem conj_conj (z : CC) : z.conj.conj = z := by
  ext <;> simp [conj]

@[simp] theorem one_mul (z : CC) : (1 : CC) * z = z := by
  ext <;> simp [mul_def, one_def]

@[simp] theorem zero_mul (z : CC) : (0 : CC) * z = 0 := by
  ext <;> simp [mul_def, zero_def]

@[simp] theorem ofQ_zero : ofQ 0 = 0 := rfl

end CC

/-- The failure modes of the embedded Python code. -/
inductive PyErr where
  | indexError
  | runtimeError
  | capabilityError
  | valueError
deriving DecidableEq, Repr

/-- `numpy` scalar indexing of a 1-D array by a signed integer: indices in
`[-len, len)` are valid (negative ones wrap around from the end), anything
else raises `IndexError`. -/
def pyGet {α : Type _} (l : List α) (i : ℤ) : Except PyErr α :=
  if h : 0 ≤ i ∧ i < l.length then
    .ok (l.get ⟨i.toNat, by omega⟩)
  else if h' : -l.length ≤ i ∧ i < 0 then
    .ok (l.get ⟨(i + l.length).toNat, by omega⟩)
  else
    .error .indexError

/-- Python slice `l[a:b]` with signed, clamped bounds. -/
def pySlice {α : Type _} (l : List α) (a b : ℤ) : List α :=
  (l.take (if b < 0 then max 0 ((l.length : ℤ) + b)
           else min b (l.length : ℤ)).toNat).drop
    (if a < 0 then max 0 ((l.length : ℤ) + a)
     else min a (l.length : ℤ)).toNat

theorem pyGet_ok_mem {α : Type _} {l : List α} {i : ℤ} {v : α}
    (h : pyGet l i = .ok v) : v ∈ l := by
  unfold pyGet at h
  split at h
  · cases h; exact List.get_mem l _ _
  · split at h
    · cases h; exact List.get_mem l _ _
    · cases h

theorem pyGet_inbounds {α : Type _} {l : List α} {i : ℤ}
    (h0 : 0 ≤ i) (h1 : i < l.length) :
    pyGet l i = .ok (l.get ⟨i.toNat, by omega⟩) := by
  unfold pyGet
  rw [dif_pos ⟨h0, h1⟩]

/-! ## Spectral selector (`first_brillouin_zone`, `diagonalise`,
`find_duplicates` of `evolution.py`) -/

/-- The loop `while eigenvalues[lower + n_lower_edge] == -edge:` of
`first_brillouin_zone`, counting eigenvalues equal to `t` upward from
index `i`.  The index only grows, so running past the end of the array
raises `IndexError` exactly as `numpy` scalar indexing would. -/
def lowerEdgeCount (l : List ℚ) (t : ℚ) (i : ℕ) : Except PyErr ℕ :=
  if h : i < l.length then
    if l.get ⟨i, h⟩ = t then (lowerEdgeCount l t (i + 1)).map (· + 1)
    else .ok 0
  else .error .indexError
termination_by l.length - i

/-- The loop `while eigenvalues[upper - n_upper_edge - 1] == edge:` of
`first_brillouin_zone`, counting eigenvalues equal to `t` downward from the
signed index `j`.  Reads go through `pyGet`, so a slightly negative index
wraps around (as in `numpy`) and an index below `-len` raises
`IndexError`. -/
def upperEdgeCount (l : List ℚ) (t : ℚ) (j : ℤ) : Except PyErr ℕ :=
  if h : -(l.length : ℤ) ≤ j then
    match pyGet l j with
    | .error e => .error e
    | .ok v => if v = t then (upperEdgeCount l t (j - 1)).map (· + 1)
               else .ok 0
  else .error .indexError
termination_by (j + l.length + 1).toNat
decreasing_by simp_wf; omega

/-- Ordering of `(eigenvalue, eigenvector)` pairs by eigenvalue; the order
`np.argsort` sorts by in `first_brillouin_zone`. -/
def pairLe {V : Type _} (p q : ℚ × V) : Prop := p.1 ≤ q.1

instance {V : Type _} : DecidableRel (@pairLe V) := fun p q =>
  inferInstanceAs (Decidable (p.1 ≤ q.1))

instance {V : Type _} : IsTotal (ℚ × V) pairLe := ⟨fun p q => le_total p.1 q.1⟩

instance {V : Type _} : IsTrans (ℚ × V) pairLe :=
  ⟨fun _ _ _ h h' => le_trans h h'⟩

/-- `np.searchsorted(sorted_values, x, side='left')`: on a sorted array,
the insertion index is the number of entries `< x`. -/
def searchsorted_left (l : List ℚ) (x : ℚ) : ℕ :=
  l.countP fun v => decide (v < x)

/-- `np.searchsorted(sorted_values, x, side='right')`: on a sorted array,
the insertion index is the number of entries `≤ x`. -/
def searchsorted_right (l : List ℚ) (x : ℚ) : ℕ :=
  l.countP fun v => decide (v ≤ x)

/-- `first_brillouin_zone(eigenvalues, eigenvectors, n_values, edge)`.

The `argsort`-and-permute of the source is embedded by sorting the list of
`(eigenvalue, eigenvector)` pairs by eigenvalue. -/
def first_brillouin_zone {V : Type _} (eigenvalues : List ℚ)
    (eigenvectors : List V) (n_values : ℕ) (edge : ℚ) :
    Except PyErr (List ℚ × List V) :=
  let pairs := (eigenvalues.zip eigenvectors).insertionSort pairLe
  let evs := pairs.map Prod.fst
  let eps := pairs.map Prod.snd
  let lower : ℕ := searchsorted_left evs (-edge)
  let upper : ℕ := searchsorted_right evs edge
  do
    let nLow ← lowerEdgeCount evs (-edge) lower
    let nUp ← upperEdgeCount evs edge ((upper : ℤ) - 1)
    let nCentre : ℤ := ((upper : ℤ) - nUp) - ((lower : ℤ) + nLow)
    if nCentre = n_values then
      .ok (pySlice evs ((lower : ℤ) + nLow) ((upper : ℤ) - nUp),
           pySlice eps ((lower : ℤ) + nLow) ((upper : ℤ) - nUp))
    else if nCentre + nLow = n_values then
      .ok (pySlice evs lower ((upper : ℤ) - nUp),
           pySlice eps lower ((upper : ℤ) - nUp))
    else if nCentre + nUp = n_values then
      .ok (pySlice evs ((lower : ℤ) + nLow) (upper : ℤ),
           pySlice eps ((lower : ℤ) + nLow) (upper : ℤ))
    else
      .error .runtimeError

/-- `np.round` to an integer: round half to even (banker's rounding). -/
def roundHalfEven (q : ℚ) : ℤ :=
  if q - ⌊q⌋ < 1 / 2 then ⌊q⌋
  else if 1 / 2 < q - ⌊q⌋ then ⌊q⌋ + 1
  else if Even ⌊q⌋ then ⌊q⌋ else ⌊q⌋ + 1

/-- `np.round(q, decimals)`. -/
def roundDec (decimals : ℕ) (q : ℚ) : ℚ :=
  (roundHalfEven (q * 10 ^ decimals) : ℚ) / 10 ^ decimals

/-- `find_duplicates(array)`: `np.unique(array, return_index=True)` yields
the sorted distinct values together with the index of the first occurrence
of each in `array`; `np.split(np.arange(n), start_indices[1:])` cuts
`[0, n)` at those indices, and groups of size `≤ 1` are filtered out. -/
def find_duplicates (l : List ℚ) : List (List ℕ) :=
  let n := l.length
  let uniqVals := (l.insertionSort (· ≤ ·)).dedup
  let starts := uniqVals.map fun v => l.indexOf v
  let cuts := starts.drop 1
  let bounds := (0 :: cuts).zip (cuts ++ [n])
  (bounds.map fun p => List.range' p.1 (p.2 - p.1)).filter fun g =>
    decide (1 < g.length)

/-- The fancy-indexed assignment `eigenvectors[degeneracy] = new`: write
`new[k]` at position `degeneracy[k]` for each `k`. -/
def setMany {V : Type _} (w : List V) (idxs : List ℕ) (vals : List V) :
    List V :=
  (idxs.zip vals).foldl (fun acc p => acc.set p.1 p.2) w

/-- The loop `for degeneracy in find_duplicates(eigenvalues):
eigenvectors[degeneracy] = linalg.gram_schmidt(eigenvectors[degeneracy])`,
with the orthogonaliser `gs` passed in as a function. -/
def applyGroups {V : Type _} [Inhabited V] (gs : List V → List V)
    (w : List V) (groups : List (List ℕ)) : List V :=
  groups.foldl
    (fun acc g => setMany acc g (gs (g.map fun k => acc.getD k default))) w

/-- `diagonalise(k, h_dimension, frequency, decimals)`, embedded from the
point at which the external eigensolver (`np.linalg.eig` or
`scipy.sparse.linalg.eigs`) has produced its raw output `rawVals`,
`rawVecs`: real parts of the eigenvalues are rounded, the zone edge
`frequency/2` is rounded, `first_brillouin_zone` selects the retained
pairs, and degenerate groups are re-orthogonalised.  The eigenvector data
is opaque here (`V`); the `np.transpose` and the final reshape into
`(h_dimension, n_zones, h_dimension)` are changes of representation of that
opaque data, with `gs` standing for `linalg.gram_schmidt`.

`gs` is Modelled from the spec: `linalg.gram_schmidt` is code of this
repository that is not under `src/`; per the spec it replaces the
eigenvectors of a degenerate group "with an orthonormal basis of their
span", so it is kept abstract as a length-preserving map on vector
lists. -/
def diagonalise {V : Type _} [Inhabited V] (gs : List V → List V)
    (rawVals : List CC) (rawVecs : List V) (h_dimension : ℕ)
    (frequency : ℚ) (decimals : ℕ) : Except PyErr (List ℚ × List V) := do
  let eigenvalues := rawVals.map fun z => roundDec decimals z.re
  let edge := roundDec decimals (0.5 * frequency)
  let (vals, vecs) ←
    first_brillouin_zone eigenvalues rawVecs h_dimension edge
  .ok (vals, applyGroups gs vecs (find_duplicates vals))

/-! ## Matrix assembler (`assemble_k`, `assemble_dk`) -/

/-- Modelled from the spec: `linalg.n_to_i` is code of this repository that
is not under `src/`.  The spec's data model orders the Hamiltonian tensor
"from `-max_harmonic` to `+max_harmonic`", so harmonic `n` lives at
component index `n + max_harmonic`. -/
def n_to_i (n : ℤ) (n_components : ℕ) : ℕ :=
  (n + ((n_components : ℤ) - 1) / 2).toNat

/-- Modelled from the spec: `linalg.i_to_n` is code of this repository that
is not under `src/`.  Per the spec it maps a block-row index to the signed
Brillouin-zone offset "centered at zero, e.g. `row - 2` for
`n_zones = 5`". -/
def i_to_n (i : ℕ) (n_zones : ℕ) : ℤ :=
  (i : ℤ) - ((n_zones : ℤ) - 1) / 2

theorem n_to_i_lt {nc : ℕ} {n : ℤ} (h1 : -(((nc : ℤ) - 1) / 2) ≤ n)
    (h2 : n ≤ ((nc : ℤ) - 1) / 2) : n_to_i n nc < nc := by
  unfold n_to_i; omega

theorem dim_pos_of_fin {nz dim : ℕ} (R : Fin (nz * dim)) : 0 < dim := by
  rcases Nat.eq_zero_or_pos dim with h | h
  · exact absurd R.isLt (by simp [h])
  · exact h

theorem fin_div_lt {nz dim : ℕ} (R : Fin (nz * dim)) : (R : ℕ) / dim < nz :=
  Nat.div_lt_of_lt_mul (Nat.mul_comm nz dim ▸ R.isLt)

theorem fin_mod_lt {nz dim : ℕ} (R : Fin (nz * dim)) : (R : ℕ) % dim < dim :=
  Nat.mod_lt _ (dim_pos_of_fin R)

/-- `assemble_k(hf, nz, omega)`.  The source zeroes a `(nz*dim, nz*dim)`
matrix and, for each harmonic `n` with `|n| ≤ hf_max = (nc-1)//2`, walks the
block diagonal `row - col = n` writing the Fourier component (plus, on the
main diagonal, `np.eye(dim) * omega * i_to_n(row, nz)`) into every block of
the grid via `linalg.set_block` (Modelled from the spec: `set_block` writes
a `dim×dim` block at block position `(row, col)`).  The walked diagonals are
disjoint, so the final matrix is given entrywise by which diagonal (if any)
the entry lies on. -/
def assemble_k {nc dim : ℕ} (hf : Fin nc → Fin dim → Fin dim → CC)
    (nz : ℕ) (omega : ℚ) : Fin (nz * dim) → Fin (nz * dim) → CC :=
  fun R C =>
    let row := (R : ℕ) / dim
    let col := (C : ℕ) / dim
    let r := (R : ℕ) % dim
    let c := (C : ℕ) % dim
    let n : ℤ := (row : ℤ) - (col : ℤ)
    let hfmax : ℤ := ((nc : ℤ) - 1) / 2
    if h : -hfmax ≤ n ∧ n ≤ hfmax then
      hf ⟨n_to_i n nc, n_to_i_lt h.1 h.2⟩ ⟨r, fin_mod_lt R⟩ ⟨c, fin_mod_lt C⟩
        + (if n = 0 then
             (if r = c then CC.ofQ (omega * ((i_to_n row nz : ℤ) : ℚ))
              else 0)
           else 0)
    else 0

/-- `assemble_dk(dhf, nz)`: one `assemble_k` with `omega = 0` per control
parameter. -/
def assemble_dk {nc dim : ℕ} (dhf : List (Fin nc → Fin dim → Fin dim → CC))
    (nz : ℕ) : List (Fin (nz * dim) → Fin (nz * dim) → CC) :=
  dhf.map fun c => assemble_k c nz 0

/-! ## Eigensystem bundle and evolution evaluators -/

instance : Inhabited CC := ⟨0⟩

/-- `fourier_modes = np.arange((1 - n_zones)//2, 1 + n_zones//2)`.
Python's floor division agrees with the `Int` division used here because
the divisor is positive.  The resulting array has length `n_zones` when
`n_zones` is odd, but length `n_zones + 1` when it is even. -/
def fourier_modes (nz : ℕ) : List ℤ :=
  (List.range ((1 + (nz : ℤ) / 2 - (1 - (nz : ℤ)) / 2).toNat)).map
    fun j : ℕ => (1 - (nz : ℤ)) / 2 + (j : ℤ)

/-- The `Eigensystem` namedtuple, for a Hamiltonian of dimension `dim` and
`nz` Brillouin zones.  `k_derivatives` is `none` when the bundle was built
without Hamiltonian derivatives.  `abstract_ket_coefficients` is the array
`1j * frequency * fourier_modes`, kept as a plain list because its length
is that of `fourier_modes`, which does not match the `nz` axis of
`k_eigenvectors` when `nz` is even. -/
structure Eigensystem (dim nz : ℕ) where
  frequency : ℚ
  quasienergies : Fin dim → ℚ
  k_eigenvectors : Fin dim → Fin nz → Fin dim → CC
  initial_floquet_bras : Fin dim → Fin dim → CC
  abstract_ket_coefficients : List CC
  k_derivatives : Option (List (Fin (nz * dim) → Fin (nz * dim) → CC))

/-- `current_floquet_kets(eigensystem, time)`: weight the Fourier-mode
blocks of each eigenvector by `np.exp(time * abstract_ket_coefficients)`
reshaped to `(1, L, 1)`, multiply into the `(dim, nz, dim)` eigenvector
tensor and sum over the mode axis.  `numpy` broadcasting requires the
weights' length `L` to be compatible with the `nz` axis — `L = nz`, or one
of the two equal to `1` — and otherwise the multiplication raises a
broadcast `ValueError`. With `L = 1` the single weight is stretched along
the mode axis; with `nz = 1` (and `L ≠ 1`) the single eigenvector block is
stretched along the weights, whose axis survives into the sum. -/
def current_floquet_kets {dim nz : ℕ} (cexp : CC → CC)
    (es : Eigensystem dim nz) (t : ℚ) :
    Except PyErr (Fin dim → Fin dim → CC) :=
  if es.abstract_ket_coefficients.length = nz then
    .ok fun j a => ∑ z : Fin nz,
      cexp (CC.ofQ t * es.abstract_ket_coefficients.getD (z : ℕ) 0) *
        es.k_eigenvectors j z a
  else if es.abstract_ket_coefficients.length = 1 then
    .ok fun j a => ∑ z : Fin nz,
      cexp (CC.ofQ t * es.abstract_ket_coefficients.getD 0 0) *
        es.k_eigenvectors j z a
  else if h : nz = 1 then
    .ok fun j a => ∑ n : Fin es.abstract_ket_coefficients.length,
      cexp (CC.ofQ t * es.abstract_ket_coefficients.getD (n : ℕ) 0) *
        es.k_eigenvectors j ⟨0, by omega⟩ a
  else .error .valueError

/-- `energy_phases = np.exp(-1j * time * eigensystem.quasienergies)`. -/
def energy_phase {dim nz : ℕ} (cexp : CC → CC) (es : Eigensystem dim nz)
    (t : ℚ) (k : Fin dim) : CC :=
  cexp (-CC.I * CC.ofQ t * CC.ofQ (es.quasienergies k))

/-- `diff_exponentials = np.exp(1j * time * frequency * differences)`, at
the signed zone difference `Δ`. -/
def diff_exponential {dim nz : ℕ} (cexp : CC → CC) (es : Eigensystem dim nz)
    (t : ℚ) (Δ : ℤ) : CC :=
  cexp (CC.I * CC.ofQ t * CC.ofQ es.frequency * CC.ofQ (Δ : ℚ))

/-- `integral_factors(eigensystem, time)`.  The source fills the
`(2*nz - 1, dim, dim)` output by four loops over disjoint index regions:
the `Δ = 0` diagonal (`-1j * time * energy_phases[i]`), the `Δ = 0`
off-diagonal symmetric pairs
(`out[nz-1, i, j] = out[nz-1, j, i] = (phase[i]-phase[j])/(E[i]-E[j])`,
a closed form symmetric under swapping `i` and `j`), and two textually
identical loops over the negative (`diff_index < nz - 1`) and positive
(`diff_index ≥ nz`) differences, each writing the broadcast row
`(energy_phases[i] - energy_phases * exponential) / (energies[i] +
separation - energies)`.  The regions are disjoint, so the final array is
given entrywise below; `Δ = diff_index - (nz - 1)`. -/
def integral_factors {dim nz : ℕ} (cexp : CC → CC) (es : Eigensystem dim nz)
    (t : ℚ) : Fin (2 * nz - 1) → Fin dim → Fin dim → CC :=
  fun d i j =>
    let Δ : ℤ := (d : ℤ) - ((nz : ℤ) - 1)
    if (d : ℕ) = nz - 1 then
      if i = j then -CC.I * CC.ofQ t * energy_phase cexp es t i
      else (energy_phase cexp es t i - energy_phase cexp es t j) /
             CC.ofQ (es.quasienergies i - es.quasienergies j)
    else
      (energy_phase cexp es t i -
          energy_phase cexp es t j * diff_exponential cexp es t Δ) /
        CC.ofQ (es.quasienergies i + es.frequency * (Δ : ℚ) -
          es.quasienergies j)

/-- `conjugate_rotate_into(out, input, amount)`: the final contents of
`out`.  The element conjugation is the parameter `f` (the source conjugates
rows of complex numbers; `combined_factors` applies it to whole Fourier
blocks).  Python slice clamping is mirrored by `List.take`/`List.drop`
truncation. -/
def conjugate_rotate_into {α : Type _} (f : α → α) (input : List α)
    (amount : ℤ) : List α :=
  if amount < 0 then
    (input.drop amount.natAbs).map f ++ (input.take amount.natAbs).map f
  else if 0 < amount then
    (input.drop (input.length - amount.toNat)).map f ++
      (input.take (input.length - amount.toNat)).map f
  else
    input.map f

/-- `np.roll(input, amount, axis=0)`: circular shift by `amount`, positive
toward higher indices. -/
def pyRoll {α : Type _} (l : List α) (amount : ℤ) : List α :=
  if l.length = 0 then l
  else
    l.drop (l.length - (amount % (l.length : ℤ)).toNat) ++
      l.take (l.length - (amount % (l.length : ℤ)).toNat)

/-- `combined_factors(eigensystem, time)`, with the derivative matrices
`dks` (the contents of `eigensystem.k_derivatives`) passed explicitly.
`rolled_k_eigenbra.ravel() @ dks[p] @ k_eigenkets[j].ravel()` is the double
contraction below; `ravel` of an `(nz, dim)` array sends flat index `R` to
block `R / dim`, component `R % dim`. -/
def combined_factors {dim nz : ℕ} (cexp : CC → CC) (es : Eigensystem dim nz)
    (t : ℚ) (dks : List (Fin (nz * dim) → Fin (nz * dim) → CC)) :
    Fin (2 * nz - 1) → Fin dim → Fin dim → Fin dks.length → CC :=
  fun d i j p =>
    let diff : ℤ := (d : ℤ) - ((nz : ℤ) - 1)
    let rolled : List (Fin dim → CC) :=
      conjugate_rotate_into (fun row c => (row c).conj)
        (List.ofFn fun z => es.k_eigenvectors i z) diff
    let rolledFlat : Fin (nz * dim) → CC := fun R =>
      rolled.getD ((R : ℕ) / dim) default ⟨(R : ℕ) % dim, fin_mod_lt R⟩
    let ketFlat : Fin (nz * dim) → CC := fun S =>
      es.k_eigenvectors j ⟨(S : ℕ) / dim, fin_div_lt S⟩
        ⟨(S : ℕ) % dim, fin_mod_lt S⟩
    integral_factors cexp es t d i j *
      ∑ R : Fin (nz * dim), ∑ S : Fin (nz * dim),
        rolledFlat R * dks.get p R S * ketFlat S

/-- `du_dcontrols(eigensystem, time)`.  Reading `k_derivatives.shape` on a
bundle built without derivatives fails (`PyErr.capabilityError`); with zero
parameters the preallocated all-zero output is returned at once; otherwise
the combined factors are computed, `current_floquet_kets` is evaluated
(propagating its broadcast error, if any) and the triple loop accumulates,
for every eigenvector pair `(i, j)` and zone `zone`, the outer product of
the current ket `i` with the conjugated stored block `j`, weighted by the
combined factors over the difference window `[zone, zone + nz)`. -/
def du_dcontrols {dim nz : ℕ} (cexp : CC → CC) (es : Eigensystem dim nz)
    (t : ℚ) : Except PyErr (List (Fin dim → Fin dim → CC)) :=
  match es.k_derivatives with
  | none => .error .capabilityError
  | some dks =>
    if dks.length = 0 then
      .ok (List.replicate dks.length fun _ _ => 0)
    else
      let factors := combined_factors cexp es t dks
      match current_floquet_kets cexp es t with
      | .error e => .error e
      | .ok kets =>
        .ok (List.ofFn fun p : Fin dks.length => fun a b =>
          ∑ i : Fin dim, ∑ j : Fin dim, ∑ zone : Fin nz, ∑ w : Fin nz,
            factors ⟨(zone : ℕ) + (w : ℕ), by
                have := zone.isLt; have := w.isLt; omega⟩ i j p *
              (kets i a * (es.k_eigenvectors j zone b).conj))

/-- `eigensystem(hamiltonian, dhamiltonian, n_zones, frequency, decimals,
sparse)`, embedded from the point at which the external eigensolver has
produced its raw output `rawVals`, `rawVecs` for the assembled `K` matrix
(dense or sparse — both feed the same selection pipeline).
`initial_floquet_bras` conjugates the sum of each retained eigenvector over
its Fourier-mode axis; `abstract_ket_coefficients` are `1j * frequency *
np.arange((1-n_zones)//2, 1 + n_zones//2)`. -/
def eigensystem {nc dim nz : ℕ}
    (gs : List (Fin nz → Fin dim → CC) → List (Fin nz → Fin dim → CC))
    (dhamiltonian : Option (List (Fin nc → Fin dim → Fin dim → CC)))
    (rawVals : List CC) (rawVecs : List (Fin nz → Fin dim → CC))
    (frequency : ℚ) (decimals : ℕ) : Except PyErr (Eigensystem dim nz) := do
  let (vals, vecs) ← diagonalise gs rawVals rawVecs dim frequency decimals
  let kvec : Fin dim → Fin nz → Fin dim → CC := fun j => vecs.getD j default
  .ok { frequency := frequency
        quasienergies := fun j => vals.getD j 0
        k_eigenvectors := kvec
        initial_floquet_bras := fun j a => (∑ z : Fin nz, kvec j z a).conj
        abstract_ket_coefficients := (fourier_modes nz).map fun m : ℤ =>
          CC.I * CC.ofQ frequency * CC.ofQ (m : ℚ)
        k_derivatives := dhamiltonian.map fun dhf => assemble_dk dhf nz }

/-! ## Spec-side reference definitions for the duplicate-run claim -/

/-- The lengths of the maximal runs of equal adjacent values of a list, in
order.  (Spec-side reference definition, from the claim's words.) -/
def runLengths : List ℚ → List ℕ
  | [] => []
  | [_] => [1]
  | x :: y :: rest =>
    match runLengths (y :: rest) with
    | [] => [1]
    | k :: ks => if x = y then (k + 1) :: ks else 1 :: (k :: ks)

/-- Turn consecutive run lengths into the runs' index ranges, starting at
`s`.  (Spec-side reference definition.) -/
def rangesFrom : List ℕ → ℕ → List (List ℕ)
  | [], _ => []
  | k :: ks, s => List.range' s k :: rangesFrom ks (s + k)

/-- Spec-side reference for `find_duplicates`: one index group per maximal
run of equal values of length at least 2, in ascending order of position,
each group holding exactly the indices of that run. -/
def dupRunsSpec (l : List ℚ) : List (List ℕ) :=
  (rangesFrom (runLengths l) 0).filter fun g => decide (1 < g.length)

/-- The `np.split`-style grouping of `[0, n)` at the given cut points, as
performed inside `find_duplicates`. -/
def splitGroups (cuts : List ℕ) (n : ℕ) : List (List ℕ) :=
  ((0 :: cuts).zip (cuts ++ [n])).map fun p => List.range' p.1 (p.2 - p.1)

/-! ## Fixtures: concrete instances used by witnesses and counterexamples -/

/-- A concrete 2-level, 2-zone bundle with distinct quasienergies. -/
def esFix : Eigensystem 2 2 where
  frequency := 2
  quasienergies := fun k => if k = 0 then 0 else 1
  k_eigenvectors := fun _ _ _ => 0
  initial_floquet_bras := fun _ _ => 0
  abstract_ket_coefficients := [0, 0]
  k_derivatives := none

/-- A concrete stand-in for the complex exponential in witness and
counterexample evaluations (any `cexp` exhibits the structural divergence,
which is independent of which exponential-like function is used). -/
def cexpFix : CC → CC := fun z => z + 1

/-- A concrete 3-component Hamiltonian tensor of dimension 2 with
distinguishable entries. -/
def hfFix : Fin 3 → Fin 2 → Fin 2 → CC :=
  fun n r c => ⟨(n : ℕ) + 1, (r : ℕ) + 2 * (c : ℕ)⟩

/-- A concrete one-dimensional eigenvector fixture for two zones. -/
def vecFix : Fin 2 → Fin 1 → CC := fun _ _ => 0

/-! ## Claim theorems -/

/-- **C1**, amended: for every bundle and time, the `integral_factors`
entry at zone-difference `Δ ≠ 0` equals
`(phase[i] - phase[j]·exp(1j·t·frequency·Δ)) / (energy[i] + frequency·Δ -
energy[j])` (note `phase[j]`, not the claimed `phase[i]`, in the second
numerator term: the source broadcasts the whole `energy_phases` array);
the `Δ = 0` entries equal `-1j·t·exp(-1j·t·energy[i])` on the diagonal and
`(phase[i] - phase[j])/(energy[i] - energy[j])` off the diagonal. -/
theorem integral_factors_closed_forms {dim nz : ℕ} (cexp : CC → CC)
    (es : Eigensystem dim nz) (t : ℚ) (d : Fin (2 * nz - 1)) (i j : Fin dim) :
    (((d : ℤ) ≠ (nz : ℤ) - 1) →
      integral_factors cexp es t d i j =
        (energy_phase cexp es t i -
            energy_phase cexp es t j *
              diff_exponential cexp es t ((d : ℤ) - ((nz : ℤ) - 1))) /
          CC.ofQ (es.quasienergies i +
            es.frequency * (((d : ℤ) - ((nz : ℤ) - 1) : ℤ) : ℚ) -
            es.quasienergies j)) ∧
    ((d : ℤ) = (nz : ℤ) - 1 → i = j →
      integral_factors cexp es t d i j =
        -CC.I * CC.ofQ t * energy_phase cexp es t i) ∧
    ((d : ℤ) = (nz : ℤ) - 1 → i ≠ j →
      integral_factors cexp es t d i j =
        (energy_phase cexp es t i - energy_phase cexp es t j) /
          CC.ofQ (es.quasienergies i - es.quasienergies j)) := by
  have hnz : 1 ≤ nz := by
    have := d.isLt
    by_contra h0
    omega
  have hdd : ((d : ℕ) = nz - 1) ↔ ((d : ℤ) = (nz : ℤ) - 1) := by omega
  refine ⟨fun hd => ?_, fun hd hij => ?_, fun hd hij => ?_⟩
  · unfold integral_factors
    rw [if_neg (fun hc => hd (hdd.mp hc))]
  · unfold integral_factors
    rw [if_pos (hdd.mpr hd), if_pos hij]
  · unfold integral_factors
    rw [if_pos (hdd.mpr hd), if_neg hij]

/-- Witness for C1's amended theorem at a concrete bundle, with the
hypothesis `Δ ≠ 0` discharged at `Δ = 1`. -/
theorem integral_factors_closed_forms_witness :
    (((⟨2, by decide⟩ : Fin (2 * 2 - 1)) : ℤ) ≠ (2 : ℤ) - 1) ∧
    integral_factors cexpFix esFix 1 ⟨2, by decide⟩ 0 1 =
      (energy_phase cexpFix esFix 1 0 -
          energy_phase cexpFix esFix 1 1 *
            diff_exponential cexpFix esFix 1
              (((⟨2, by decide⟩ : Fin (2 * 2 - 1)) : ℤ) - ((2 : ℤ) - 1))) /
        CC.ofQ (esFix.quasienergies 0 +
          esFix.frequency *
            (((((⟨2, by decide⟩ : Fin (2 * 2 - 1)) : ℤ) - ((2 : ℤ) - 1)) : ℤ) : ℚ) -
          esFix.quasienergies 1) :=
  ⟨by decide,
   (integral_factors_closed_forms cexpFix esFix 1 ⟨2, by decide⟩ 0 1).1
     (by decide)⟩

/-- **C1**, counterexample to the claim as stated: at the bundle `esFix`
(quasienergies `0` and `1`, frequency `2`), time `1`, zone difference
`Δ = 1` and the eigenvalue pair `(0, 1)`, the `integral_factors` entry is
not `(phase[0] - phase[0]·exp(1j·t·frequency·Δ)) / (energy[0] +
frequency·Δ - energy[1])`: the code's numerator uses `phase[1]`, the value
at the second index of the pair. -/
theorem integral_factors_general_term_counterexample :
    integral_factors cexpFix esFix 1 ⟨2, by decide⟩ 0 1 ≠
      (energy_phase cexpFix esFix 1 0 -
          energy_phase cexpFix esFix 1 0 * diff_exponential cexpFix esFix 1 1) /
        CC.ofQ (esFix.quasienergies 0 + esFix.frequency * ((1 : ℤ) : ℚ) -
          esFix.quasienergies 1) := by
  have h1 : integral_factors cexpFix esFix 1 ⟨2, by decide⟩ 0 1 = ⟨-2, -1⟩ := by
    simp [integral_factors, energy_phase, diff_exponential, esFix, cexpFix,
      CC.mul_def, CC.add_def, CC.div_def, CC.inv, CC.I, CC.ofQ, CC.one_def,
      CC.neg_def, CC.sub_def, CC.zero_def]
    norm_num
  have h2 : (energy_phase cexpFix esFix 1 0 -
        energy_phase cexpFix esFix 1 0 * diff_exponential cexpFix esFix 1 1) /
        CC.ofQ (esFix.quasienergies 0 + esFix.frequency * ((1 : ℤ) : ℚ) -
          esFix.quasienergies 1) = ⟨0, -2⟩ := by
    simp [energy_phase, diff_exponential, esFix, cexpFix,
      CC.mul_def, CC.add_def, CC.div_def, CC.inv, CC.I, CC.ofQ, CC.one_def,
      CC.neg_def, CC.sub_def, CC.zero_def]
    norm_num
  rw [h1, h2]
  intro hc
  exact absurd (congrArg CC.im hc) (by norm_num)

/-- **C7**, amended: for every input sequence and every signed `amount`
with `|amount| ≤ length` (which covers every call the code makes, where
`|amount| ≤ n_zones - 1`), `conjugate_rotate_into` produces the elementwise
complex conjugate of the circular shift of the input by `amount`
(`np.conj(np.roll(input, amount))`); for `|amount| > length` the slice
arithmetic degenerates to a pure conjugation copy instead, so the bound is
needed. -/
theorem conjugate_rotate_into_roll (input : List CC) (amount : ℤ)
    (h : amount.natAbs ≤ input.length) :
    conjugate_rotate_into CC.conj input amount =
      (pyRoll input amount).map CC.conj := by
  unfold conjugate_rotate_into pyRoll
  rcases lt_trichotomy amount 0 with hneg | h0 | hpos
  · have hlen : input.length ≠ 0 := by omega
    rw [if_pos hneg, if_neg hlen]
    have hmod : amount % (input.length : ℤ) = amount + input.length := by
      have h2 : (amount + (input.length : ℤ) * 1) % (input.length : ℤ) =
          amount % (input.length : ℤ) :=
        Int.add_mul_emod_self_left amount (input.length : ℤ) 1
      rw [show amount + (input.length : ℤ) * 1 = amount + input.length by ring]
        at h2
      rw [← h2, Int.emod_eq_of_lt (by omega) (by omega)]
    have hk : ((amount % (input.length : ℤ)).toNat) =
        input.length - amount.natAbs := by omega
    rw [hk, List.map_append]
    have h2 : input.length - (input.length - amount.natAbs) =
        amount.natAbs := by omega
    rw [h2]
  · subst h0
    rw [if_neg (lt_irrefl 0), if_neg (lt_irrefl 0)]
    rcases Nat.eq_zero_or_pos input.length with hlen | hlen
    · rw [if_pos hlen]
    · rw [if_neg (by omega)]
      have hk : (((0 : ℤ) % (input.length : ℤ)).toNat) = 0 := by
        rw [Int.zero_emod]
        rfl
      rw [hk, Nat.sub_zero, List.drop_length, List.take_length,
        List.nil_append]
  · have hlen : input.length ≠ 0 := by omega
    rw [if_neg (by omega), if_pos hpos, if_neg hlen]
    rcases eq_or_lt_of_le (show amount ≤ (input.length : ℤ) by omega)
      with heq | hlt
    · have hk : ((amount % (input.length : ℤ)).toNat) = 0 := by
        rw [heq, Int.emod_self]
        rfl
      have h2 : input.length - amount.toNat = 0 := by omega
      rw [hk, h2, Nat.sub_zero, List.drop_length, List.take_length,
        List.drop_zero, List.take_zero, List.map_nil, List.nil_append,
        List.append_nil]
    · have hk : ((amount % (input.length : ℤ)).toNat) = amount.toNat := by
        rw [Int.emod_eq_of_lt (by omega) (by omega)]
      rw [hk, List.map_append]

/-- Witness for C7's amended theorem: a rotation by `-1` on a length-2
input, with the bound `|amount| ≤ length` discharged. -/
theorem conjugate_rotate_into_roll_witness :
    ((-1 : ℤ).natAbs ≤ ([⟨1, 2⟩, ⟨3, 4⟩] : List CC).length) ∧
    conjugate_rotate_into CC.conj [⟨1, 2⟩, ⟨3, 4⟩] (-1) =
      (pyRoll [⟨1, 2⟩, ⟨3, 4⟩] (-1)).map CC.conj :=
  ⟨by decide, conjugate_rotate_into_roll [⟨1, 2⟩, ⟨3, 4⟩] (-1) (by decide)⟩

/-- **C7**, counterexample to the claim as stated: on the length-2 input
`[1, 2]` with `amount = 3`, the code produces a pure conjugation copy
(`[1, 2]`), while `np.conj(np.roll(input, 3))` is `[2, 1]`. -/
theorem conjugate_rotate_into_counterexample :
    conjugate_rotate_into CC.conj [⟨1, 0⟩, ⟨2, 0⟩] 3 ≠
      (pyRoll [⟨1, 0⟩, ⟨2, 0⟩] 3).map CC.conj := by
  intro hc
  have h1 : conjugate_rotate_into CC.conj [⟨1, 0⟩, ⟨2, 0⟩] 3 =
      ([⟨1, 0⟩, ⟨2, 0⟩] : List CC) := by
    simp [conjugate_rotate_into, CC.conj]
  have h2 : (pyRoll [⟨1, 0⟩, ⟨2, 0⟩] 3).map CC.conj =
      ([⟨2, 0⟩, ⟨1, 0⟩] : List CC) := by
    simp [pyRoll, CC.conj]
  rw [h1, h2] at hc
  have := congrArg (fun l => (l.headD 0).re) hc
  norm_num at this

/-- **C6**: on a bundle whose `k_derivatives` is absent, `du_dcontrols`
fails with the capability error (reading `None.shape`) and never returns a
value; the immediate all-zero return happens only on a bundle whose
derivative data is present with zero parameters (where the
`(0, dim, dim)`-shaped zero tensor is the empty list of matrices). -/
theorem du_dcontrols_capability_error {dim nz : ℕ} (cexp : CC → CC)
    (es : Eigensystem dim nz) (t : ℚ) :
    (es.k_derivatives = none →
      du_dcontrols cexp es t = Except.error PyErr.capabilityError) ∧
    (es.k_derivatives = some [] →
      du_dcontrols cexp es t = Except.ok []) := by
  constructor
  · intro h
    unfold du_dcontrols
    rw [h]
  · intro h
    unfold du_dcontrols
    rw [h]
    rfl

/-- Witness for C6 at the concrete derivative-free bundle `esFix`. -/
theorem du_dcontrols_capability_error_witness :
    esFix.k_derivatives = none ∧
    du_dcontrols cexpFix esFix 1 = Except.error PyErr.capabilityError :=
  ⟨rfl, (du_dcontrols_capability_error cexpFix esFix 1).1 rfl⟩

theorem block_index_lt {nz dim : ℕ} (row : Fin nz) (r : Fin dim) :
    (row : ℕ) * dim + (r : ℕ) < nz * dim := by
  have h1 : (row : ℕ) + 1 ≤ nz := row.isLt
  calc (row : ℕ) * dim + (r : ℕ) < (row : ℕ) * dim + dim := by
        have := r.isLt; omega
    _ = ((row : ℕ) + 1) * dim := by ring
    _ ≤ nz * dim := Nat.mul_le_mul_right dim h1

theorem hf_index_lt {nc maxh : ℕ} (hnc : nc = 2 * maxh + 1) {n : ℤ}
    (h : n.natAbs ≤ maxh) : n_to_i n nc < nc := by
  subst hnc
  unfold n_to_i
  omega

/-- The entrywise block-placement rule of `assemble_k`, for any zone count:
within the harmonic band the entry is the Fourier component plus the
diagonal frequency offset, outside it the entry is zero.  Shared by the C4
and C5 claim theorems. -/
theorem assemble_k_entry_rule {nc dim nz maxh : ℕ}
    (hf : Fin nc → Fin dim → Fin dim → CC) (omega : ℚ)
    (hnc : nc = 2 * maxh + 1) (row col : Fin nz) (r c : Fin dim) :
    (∀ h : (((row : ℕ) : ℤ) - ((col : ℕ) : ℤ)).natAbs ≤ maxh,
      assemble_k hf nz omega
          ⟨(row : ℕ) * dim + (r : ℕ), block_index_lt row r⟩
          ⟨(col : ℕ) * dim + (c : ℕ), block_index_lt col c⟩ =
        hf ⟨n_to_i (((row : ℕ) : ℤ) - ((col : ℕ) : ℤ)) nc, hf_index_lt hnc h⟩
            r c +
          (if row = col then
            (if r = c then CC.ofQ (omega * ((i_to_n row nz : ℤ) : ℚ)) else 0)
           else 0)) ∧
    ((((row : ℕ) : ℤ) - ((col : ℕ) : ℤ)).natAbs > maxh →
      assemble_k hf nz omega
          ⟨(row : ℕ) * dim + (r : ℕ), block_index_lt row r⟩
          ⟨(col : ℕ) * dim + (c : ℕ), block_index_lt col c⟩ = 0) := by
  have hdim : 0 < dim := r.pos
  have hrow : ((row : ℕ) * dim + (r : ℕ)) / dim = (row : ℕ) := by
    rw [Nat.mul_comm (row : ℕ) dim, Nat.mul_add_div hdim,
      Nat.div_eq_of_lt r.isLt, Nat.add_zero]
  have hcol : ((col : ℕ) * dim + (c : ℕ)) / dim = (col : ℕ) := by
    rw [Nat.mul_comm (col : ℕ) dim, Nat.mul_add_div hdim,
      Nat.div_eq_of_lt c.isLt, Nat.add_zero]
  have hr : ((row : ℕ) * dim + (r : ℕ)) % dim = (r : ℕ) := by
    rw [Nat.mul_comm (row : ℕ) dim, Nat.mul_add_mod, Nat.mod_eq_of_lt r.isLt]
  have hc : ((col : ℕ) * dim + (c : ℕ)) % dim = (c : ℕ) := by
    rw [Nat.mul_comm (col : ℕ) dim, Nat.mul_add_mod, Nat.mod_eq_of_lt c.isLt]
  unfold assemble_k
  simp only [hrow, hcol, hr, hc]
  have hfm : ((nc : ℤ) - 1) / 2 = (maxh : ℤ) := by omega
  constructor
  · intro h
    rw [dif_pos (by omega)]
    have hcond : ((((row : ℕ) : ℤ) - ((col : ℕ) : ℤ)) = 0) ↔ row = col := by
      rw [Fin.ext_iff]; omega
    have hrc : ((r : ℕ) = (c : ℕ)) ↔ r = c := by rw [Fin.ext_iff]
    simp only [hcond, hrc]
  · intro h
    rw [dif_neg (by omega)]

/-- **C4**: for every Hamiltonian tensor with `n_components = 2·max_harmonic
+ 1` components of dimension `d`, every odd `n_zones ≥ n_components` and
every frequency, the entry of `assemble_k` at position `(row·d + r,
col·d + c)` — i.e. block `(row, col)`, inner position `(r, c)` — is the
Fourier component for harmonic `row - col` whenever `|row - col| ≤
max_harmonic`, plus `frequency · harmonic_offset(row)` on the main
block-diagonal's identity positions (with `harmonic_offset` centred at
zero), and zero whenever `|row - col| > max_harmonic`. -/
theorem assemble_k_block_rule {nc dim nz maxh : ℕ}
    (hf : Fin nc → Fin dim → Fin dim → CC) (omega : ℚ)
    (hnc : nc = 2 * maxh + 1) (hodd : Odd nz) (hge : nc ≤ nz)
    (row col : Fin nz) (r c : Fin dim) :
    (∀ h : (((row : ℕ) : ℤ) - ((col : ℕ) : ℤ)).natAbs ≤ maxh,
      assemble_k hf nz omega
          ⟨(row : ℕ) * dim + (r : ℕ), block_index_lt row r⟩
          ⟨(col : ℕ) * dim + (c : ℕ), block_index_lt col c⟩ =
        hf ⟨n_to_i (((row : ℕ) : ℤ) - ((col : ℕ) : ℤ)) nc, hf_index_lt hnc h⟩
            r c +
          (if row = col then
            (if r = c then CC.ofQ (omega * ((i_to_n row nz : ℤ) : ℚ)) else 0)
           else 0)) ∧
    ((((row : ℕ) : ℤ) - ((col : ℕ) : ℤ)).natAbs > maxh →
      assemble_k hf nz omega
          ⟨(row : ℕ) * dim + (r : ℕ), block_index_lt row r⟩
          ⟨(col : ℕ) * dim + (c : ℕ), block_index_lt col c⟩ = 0) :=
  assemble_k_entry_rule hf omega hnc row col r c

/-- Witness for C4 on the spec's end-to-end scenario shape (2-level
Hamiltonian, 3 Fourier components, `n_zones = 5`, `frequency = 1`), at the
diagonal block `(3, 3)` whose offset is `3 - 2 = 1`. -/
theorem assemble_k_block_rule_witness :
    (3 : ℕ) = 2 * 1 + 1 ∧ Odd 5 ∧ (3 : ℕ) ≤ 5 ∧
    ((((3 : Fin 5) : ℕ) : ℤ) - (((3 : Fin 5) : ℕ) : ℤ)).natAbs ≤ 1 ∧
    assemble_k hfFix 5 1
        ⟨((3 : Fin 5) : ℕ) * 2 + ((0 : Fin 2) : ℕ), block_index_lt 3 0⟩
        ⟨((3 : Fin 5) : ℕ) * 2 + ((0 : Fin 2) : ℕ), block_index_lt 3 0⟩ =
      hfFix ⟨n_to_i ((((3 : Fin 5) : ℕ) : ℤ) - (((3 : Fin 5) : ℕ) : ℤ)) 3,
          by decide⟩ 0 0 +
        (if (3 : Fin 5) = 3 then
          (if (0 : Fin 2) = 0 then
            CC.ofQ (1 * ((i_to_n ((3 : Fin 5) : ℕ) 5 : ℤ) : ℚ))
           else 0)
         else 0) :=
  ⟨rfl, by decide, by decide, by decide,
   (@assemble_k_block_rule 3 2 5 1 hfFix 1 rfl (by decide) (by decide)
       3 3 0 0).1 (by decide)⟩

/-- **C5**, amended: neither `assemble_k` nor `eigensystem` validates
`n_zones`.  A call with even `n_zones` or `n_zones < n_components`
proceeds without any error: `assemble_k` still returns the matrix given by
the block-placement rule (harmonics whose diagonal does not intersect the
`n_zones × n_zones` block grid are silently dropped), and `eigensystem`
can return a bundle. -/
theorem assemble_k_no_validation {nc dim nz maxh : ℕ}
    (hf : Fin nc → Fin dim → Fin dim → CC) (omega : ℚ)
    (hnc : nc = 2 * maxh + 1) (hbad : ¬ Odd nz ∨ nz < nc)
    (row col : Fin nz) (r c : Fin dim) :
    (∀ h : (((row : ℕ) : ℤ) - ((col : ℕ) : ℤ)).natAbs ≤ maxh,
      assemble_k hf nz omega
          ⟨(row : ℕ) * dim + (r : ℕ), block_index_lt row r⟩
          ⟨(col : ℕ) * dim + (c : ℕ), block_index_lt col c⟩ =
        hf ⟨n_to_i (((row : ℕ) : ℤ) - ((col : ℕ) : ℤ)) nc, hf_index_lt hnc h⟩
            r c +
          (if row = col then
            (if r = c then CC.ofQ (omega * ((i_to_n row nz : ℤ) : ℚ)) else 0)
           else 0)) ∧
    ((((row : ℕ) : ℤ) - ((col : ℕ) : ℤ)).natAbs > maxh →
      assemble_k hf nz omega
          ⟨(row : ℕ) * dim + (r : ℕ), block_index_lt row r⟩
          ⟨(col : ℕ) * dim + (c : ℕ), block_index_lt col c⟩ = 0) :=
  assemble_k_entry_rule hf omega hnc row col r c

/-- Witness for C5's amended theorem: a 3-component Hamiltonian assembled
over `n_zones = 2` (both even and smaller than `n_components`) still obeys
the placement rule at block `(1, 0)`. -/
theorem assemble_k_no_validation_witness :
    (3 : ℕ) = 2 * 1 + 1 ∧ (¬ Odd 2 ∨ 2 < 3) ∧
    ((((1 : Fin 2) : ℕ) : ℤ) - (((0 : Fin 2) : ℕ) : ℤ)).natAbs ≤ 1 ∧
    assemble_k hfFix 2 1
        ⟨((1 : Fin 2) : ℕ) * 2 + ((0 : Fin 2) : ℕ), block_index_lt 1 0⟩
        ⟨((0 : Fin 2) : ℕ) * 2 + ((1 : Fin 2) : ℕ), block_index_lt 0 1⟩ =
      hfFix ⟨n_to_i ((((1 : Fin 2) : ℕ) : ℤ) - (((0 : Fin 2) : ℕ) : ℤ)) 3,
          by decide⟩ 0 1 +
        (if (1 : Fin 2) = (0 : Fin 2) then
          (if (0 : Fin 2) = (1 : Fin 2) then
            CC.ofQ (1 * ((i_to_n ((1 : Fin 2) : ℕ) 2 : ℤ) : ℚ))
           else 0)
         else 0) :=
  ⟨rfl, Or.inl (by decide), by decide,
   (@assemble_k_no_validation 3 2 2 1 hfFix 1 rfl (Or.inl (by decide))
       1 0 0 1).1 (by decide)⟩

theorem lowerEdgeCount_fix : lowerEdgeCount [(0 : ℚ)] (-(1 / 2)) 0 = .ok 0 := by
  rw [lowerEdgeCount]
  norm_num

theorem upperEdgeCount_fix : upperEdgeCount [(0 : ℚ)] (1 / 2) 0 = .ok 0 := by
  rw [upperEdgeCount]
  norm_num [pyGet]

theorem first_brillouin_zone_fix :
    first_brillouin_zone [(0 : ℚ)] [vecFix] 1 (1 / 2) = .ok ([0], [vecFix]) := by
  unfold first_brillouin_zone
  norm_num [List.insertionSort, List.orderedInsert, pairLe,
    searchsorted_left, searchsorted_right,
    lowerEdgeCount_fix, upperEdgeCount_fix, Bind.bind, Except.bind, pySlice]

theorem find_duplicates_single : find_duplicates [(0 : ℚ)] = [] := by
  unfold find_duplicates
  norm_num [List.insertionSort, List.orderedInsert, List.dedup,
    List.indexOf, List.findIdx, List.findIdx.go, List.range']

theorem diagonalise_fix :
    diagonalise id [(⟨0, 0⟩ : CC)] [vecFix] 1 1 1 = .ok ([0], [vecFix]) := by
  unfold diagonalise
  have rd0 : roundDec 1 ((⟨0, 0⟩ : CC).re) = 0 := by
    unfold roundDec roundHalfEven
    norm_num
  have rdh : roundDec 1 ((1 : ℚ) / 2) = 1 / 2 := by
    unfold roundDec roundHalfEven
    norm_num
  norm_num [rd0, rdh, first_brillouin_zone_fix, find_duplicates_single,
    Bind.bind, Except.bind, applyGroups]

/-- **C5**, counterexample to the claim as stated: a full `eigensystem`
construction with `n_zones = 2` (even, and smaller than the 3 Fourier
components of the Hamiltonian) does not fail fast — it returns a bundle. -/
theorem eigensystem_even_zones_counterexample :
    (@eigensystem 3 1 2 id none [⟨0, 0⟩] [vecFix] 1 1).isOk = true := by
  unfold eigensystem
  norm_num [diagonalise_fix, Bind.bind, Except.bind, Except.isOk,
    Except.toBool]

/-- The `fourier_modes` array has exactly `n_zones` entries when `n_zones`
is odd (and `n_zones + 1` when it is even). -/
theorem fourier_modes_length_odd {nz : ℕ} (h : Odd nz) :
    (fourier_modes nz).length = nz := by
  obtain ⟨m, rfl⟩ := h
  unfold fourier_modes
  rw [List.length_map, List.length_range]
  omega

/-- When the coefficient array's length matches the `nz` axis, the
broadcast succeeds and `current_floquet_kets` returns the weighted
mode-axis sum. -/
theorem current_floquet_kets_length_ok {dim nz : ℕ} (cexp : CC → CC)
    (es : Eigensystem dim nz) (t : ℚ)
    (h : es.abstract_ket_coefficients.length = nz) :
    current_floquet_kets cexp es t =
      .ok fun j a => ∑ z : Fin nz,
        cexp (CC.ofQ t * es.abstract_ket_coefficients.getD (z : ℕ) 0) *
          es.k_eigenvectors j z a := by
  unfold current_floquet_kets
  rw [if_pos h]

/-- **C10**, amended: for every bundle produced by `eigensystem` with an
odd number of Brillouin zones (the documented caller contract), the
instantaneous Floquet kets at time 0 are the elementwise complex
conjugates of the stored `initial_floquet_bras`: with `n_zones` odd the
`fourier_modes` weight array has length exactly `n_zones`, the broadcast
against the eigenvector tensor succeeds, and at `t = 0` every exponential
weight `cexp 0` is 1, so each ket is the sum of that eigenvector's
Fourier-mode blocks, whose conjugate is by construction the stored bra.
(With an even zone count `eigensystem` still returns a bundle, but
`current_floquet_kets` raises a broadcast error on it — see the
counterexample.) -/
theorem current_floquet_kets_at_zero {nc dim nz : ℕ} (cexp : CC → CC)
    (hcexp : cexp 0 = 1) (hodd : Odd nz)
    (gs : List (Fin nz → Fin dim → CC) → List (Fin nz → Fin dim → CC))
    (dh : Option (List (Fin nc → Fin dim → Fin dim → CC)))
    (rawVals : List CC) (rawVecs : List (Fin nz → Fin dim → CC))
    (frequency : ℚ) (decimals : ℕ) (es : Eigensystem dim nz)
    (h : eigensystem gs dh rawVals rawVecs frequency decimals = .ok es) :
    current_floquet_kets cexp es 0 =
      .ok fun j a => (es.initial_floquet_bras j a).conj := by
  unfold eigensystem at h
  cases hd : diagonalise gs rawVals rawVecs dim frequency decimals with
  | error e =>
    rw [hd] at h
    simp [Bind.bind, Except.bind] at h
  | ok p =>
    obtain ⟨vals, vecs⟩ := p
    rw [hd] at h
    simp only [Bind.bind, Except.bind, Except.ok.injEq] at h
    subst h
    rw [current_floquet_kets_length_ok cexp _ 0 (by
      show ((fourier_modes nz).map fun m : ℤ =>
        CC.I * CC.ofQ frequency * CC.ofQ (m : ℚ)).length = nz
      rw [List.length_map]
      exact fourier_modes_length_odd hodd)]
    simp [hcexp]

/-- The bundle produced by the concrete `eigensystem` run of
`diagonalise_fix`, written out field by field. -/
def esW : Eigensystem 1 2 where
  frequency := 1
  quasienergies := fun j => ([0] : List ℚ).getD (j : ℕ) 0
  k_eigenvectors := fun j => ([vecFix] : List _).getD (j : ℕ) default
  initial_floquet_bras := fun j a =>
    (∑ z : Fin 2, ([vecFix] : List _).getD ((j : Fin 1) : ℕ) default z a).conj
  abstract_ket_coefficients := (fourier_modes 2).map fun m : ℤ =>
    CC.I * CC.ofQ 1 * CC.ofQ (m : ℚ)
  k_derivatives := none

theorem eigensystem_fix :
    @eigensystem 3 1 2 id none [⟨0, 0⟩] [vecFix] 1 1 = .ok esW := by
  unfold eigensystem esW
  rw [diagonalise_fix]
  rfl

/-- **C10**, counterexample to the claim as stated: `eigensystem` performs
no zone-count validation and returns bundles with an even `n_zones` (here
the concrete bundle of `eigensystem_fix`, with `n_zones = 2`), but on
every such bundle `fourier_modes` has length `n_zones + 1`, so
`current_floquet_kets` raises a broadcast `ValueError` at time 0 instead
of returning the conjugated bras — even for a weight function with
`cexp 0 = 1`. -/
theorem current_floquet_kets_even_counterexample :
    @eigensystem 3 1 2 id none [⟨0, 0⟩] [vecFix] 1 1 = .ok esW ∧
    ((fun _ : CC => (1 : CC)) 0 = 1) ∧
    current_floquet_kets (fun _ : CC => (1 : CC)) esW 0 =
      .error .valueError :=
  ⟨eigensystem_fix, rfl, rfl⟩

/-- A concrete one-dimensional eigenvector fixture for a single zone. -/
def vecOdd : Fin 1 → Fin 1 → CC := fun _ _ => 0

theorem first_brillouin_zone_fix_odd :
    first_brillouin_zone [(0 : ℚ)] [vecOdd] 1 (1 / 2) =
      .ok ([0], [vecOdd]) := by
  unfold first_brillouin_zone
  norm_num [List.insertionSort, List.orderedInsert, pairLe,
    searchsorted_left, searchsorted_right,
    lowerEdgeCount_fix, upperEdgeCount_fix, Bind.bind, Except.bind, pySlice]

theorem diagonalise_fix_odd :
    diagonalise id [(⟨0, 0⟩ : CC)] [vecOdd] 1 1 1 = .ok ([0], [vecOdd]) := by
  unfold diagonalise
  have rd0 : roundDec 1 ((⟨0, 0⟩ : CC).re) = 0 := by
    unfold roundDec roundHalfEven
    norm_num
  have rdh : roundDec 1 ((1 : ℚ) / 2) = 1 / 2 := by
    unfold roundDec roundHalfEven
    norm_num
  norm_num [rd0, rdh, first_brillouin_zone_fix_odd, find_duplicates_single,
    Bind.bind, Except.bind, applyGroups]

/-- The bundle produced by the concrete odd-zone `eigensystem` run of
`diagonalise_fix_odd`, written out field by field. -/
def esOdd : Eigensystem 1 1 where
  frequency := 1
  quasienergies := fun j => ([0] : List ℚ).getD (j : ℕ) 0
  k_eigenvectors := fun j => ([vecOdd] : List _).getD (j : ℕ) default
  initial_floquet_bras := fun j a =>
    (∑ z : Fin 1, ([vecOdd] : List _).getD ((j : Fin 1) : ℕ) default z a).conj
  abstract_ket_coefficients := (fourier_modes 1).map fun m : ℤ =>
    CC.I * CC.ofQ 1 * CC.ofQ (m : ℚ)
  k_derivatives := none

theorem eigensystem_fix_odd :
    @eigensystem 3 1 1 id none [⟨0, 0⟩] [vecOdd] 1 1 = .ok esOdd := by
  unfold eigensystem esOdd
  rw [diagonalise_fix_odd]
  rfl

/-! ### Sorted-list counting lemmas for the spectral selector -/

theorem sorted_get_iff_countP {p : ℚ → Bool}
    (hp : ∀ v w : ℚ, v ≤ w → p w = true → p v = true)
    {l : List ℚ} (hs : l.Sorted (· ≤ ·)) :
    ∀ {k : ℕ} (hk : k < l.length),
      (p (l.get ⟨k, hk⟩) = true ↔ k < l.countP p) := by
  induction l with
  | nil => intro k hk; simp at hk
  | cons x xs ih =>
    intro k hk
    rw [List.countP_cons]
    cases k with
    | zero =>
      rw [show (x :: xs).get ⟨0, hk⟩ = x from rfl]
      constructor
      · intro h
        rw [if_pos h]
        omega
      · intro h
        by_contra hpx
        have hpx' : p x = false := by revert hpx; cases p x <;> simp
        rw [hpx'] at h
        simp only [Bool.false_eq_true, if_false, Nat.add_zero] at h
        obtain ⟨a, ha, hpa⟩ := List.countP_pos_iff.mp h
        have hx := List.rel_of_sorted_cons hs a ha
        rw [hp x a hx hpa] at hpx'
        cases hpx'
    | succ k =>
      have hs' := hs.of_cons
      have hk' : k < xs.length := by simpa using hk
      rw [show (x :: xs).get ⟨k + 1, hk⟩ = xs.get ⟨k, hk'⟩ from rfl]
      constructor
      · intro h
        have h1 := (ih hs' hk').mp h
        have hmem := List.get_mem xs k hk'
        have hpx : p x = true := hp x _ (List.rel_of_sorted_cons hs _ hmem) h
        rw [if_pos hpx]
        omega
      · intro h
        have hite : (if p x = true then 1 else 0) ≤ 1 := by split <;> omega
        exact (ih hs' hk').mpr (by omega)

theorem countP_le_split (l : List ℚ) (t : ℚ) :
    l.countP (fun v => decide (v ≤ t)) =
      l.countP (fun v => decide (v < t)) +
        l.countP (fun v => decide (v = t)) := by
  induction l with
  | nil => rfl
  | cons x xs ih =>
    simp only [List.countP_cons, ih]
    rcases lt_trichotomy x t with h | h | h
    · rw [if_pos (by simpa using le_of_lt h), if_pos (by simpa using h),
        if_neg (by simpa using ne_of_lt h)]
      omega
    · subst h
      rw [if_pos (by simp), if_neg (by simp), if_pos (by simp)]
      omega
    · rw [if_neg (by simpa using not_le_of_lt h),
        if_neg (by simpa using not_lt_of_lt h),
        if_neg (by simpa using (ne_of_lt h).symm)]
      omega

theorem countP_le_add_gt (l : List ℚ) (t : ℚ) :
    l.countP (fun v => decide (v ≤ t)) +
      l.countP (fun v => decide (t < v)) = l.length := by
  induction l with
  | nil => rfl
  | cons x xs ih =>
    simp only [List.countP_cons, List.length_cons]
    rcases le_or_lt x t with h | h
    · rw [if_pos (by simpa using h), if_neg (by simpa using not_lt_of_le h)]
      omega
    · rw [if_neg (by simpa using not_le_of_lt h), if_pos (by simpa using h)]
      omega

theorem countP_lt_decompose (l : List ℚ) {a b : ℚ} (hab : a < b) :
    l.countP (fun v => decide (v < b)) =
      l.countP (fun v => decide (v ≤ a)) +
        l.countP (fun v => decide (a < v) && decide (v < b)) := by
  induction l with
  | nil => rfl
  | cons x xs ih =>
    simp only [List.countP_cons, ih]
    rcases le_or_lt x a with h | h
    · rw [if_pos (by simpa using lt_of_le_of_lt h hab), if_pos (by simpa using h),
        if_neg (by simp [not_lt_of_le h])]
      omega
    · rcases lt_or_le x b with h2 | h2
      · rw [if_pos (by simpa using h2), if_neg (by simpa using not_le_of_lt h),
          if_pos (by simp [h, h2])]
        omega
      · rw [if_neg (by simpa using not_lt_of_le h2),
          if_neg (by simpa using not_le_of_lt h), if_neg (by simp [not_lt_of_le h2])]
        omega

/-! ### `pySlice` lemmas -/

theorem pySlice_eq_drop_take {α : Type _} (l : List α) {a b : ℤ}
    (ha : 0 ≤ a) (hb : 0 ≤ b) (hbl : b ≤ l.length) :
    pySlice l a b = (l.take b.toNat).drop a.toNat := by
  unfold pySlice
  rw [if_neg (by omega), if_neg (by omega)]
  rcases le_or_lt a (l.length : ℤ) with h | h
  · rw [min_eq_left h, min_eq_left hbl]
  · rw [min_eq_right (le_of_lt h), min_eq_left hbl]
    have h1 : (l.take b.toNat).drop a.toNat = [] := by
      apply List.drop_eq_nil_of_le
      have := l.length_take b.toNat
      omega
    have h2 : (l.take b.toNat).drop ((l.length : ℤ)).toNat = [] := by
      apply List.drop_eq_nil_of_le
      have := l.length_take b.toNat
      omega
    rw [h1, h2]

theorem pySlice_length {α : Type _} (l : List α) {a b : ℤ}
    (ha : 0 ≤ a) (hab : a ≤ b) (hbl : b ≤ l.length) :
    (pySlice l a b).length = (b - a).toNat := by
  rw [pySlice_eq_drop_take l ha (by omega) hbl]
  rw [List.length_drop, List.length_take]
  omega

theorem pySlice_sublist {α : Type _} (l : List α) (a b : ℤ) :
    (pySlice l a b).Sublist l := by
  unfold pySlice
  exact (List.drop_sublist _ _).trans (List.take_sublist _ _)

theorem pySlice_map {α β : Type _} (f : α → β) (l : List α) (a b : ℤ) :
    pySlice (l.map f) a b = (pySlice l a b).map f := by
  unfold pySlice
  rw [List.length_map, ← List.map_take, ← List.map_drop]

theorem pySlice_mem_pos {α : Type _} {l : List α} {a b : ℤ}
    (ha : 0 ≤ a) (hb : 0 ≤ b) (hbl : b ≤ l.length) :
    ∀ x ∈ pySlice l a b, ∃ (k : ℕ) (hk : k < l.length),
      a ≤ (k : ℤ) ∧ (k : ℤ) < b ∧ l.get ⟨k, hk⟩ = x := by
  intro x hx
  rw [pySlice_eq_drop_take l ha hb hbl] at hx
  obtain ⟨⟨j, hj⟩, hget⟩ := List.mem_iff_get.mp hx
  have hjlen := hj
  rw [List.length_drop, List.length_take] at hjlen
  have hk : a.toNat + j < l.length := by omega
  have hkb : a.toNat + j < b.toNat := by omega
  refine ⟨a.toNat + j, hk, by omega, by omega, ?_⟩
  rw [← hget]
  rw [← List.get_drop (l.take b.toNat) (by rw [List.length_take]; omega)]
  rw [← List.get_take l hk (by omega)]

/-! ### Edge-counting loop lemmas -/

theorem pyGet_ok_bounds {α : Type _} {l : List α} {i : ℤ} {v : α}
    (h : pyGet l i = .ok v) : -(l.length : ℤ) ≤ i ∧ i < l.length := by
  unfold pyGet at h
  split at h
  · omega
  · split at h
    · omega
    · cases h

theorem get_index_congr {α : Type _} (l : List α) {a b : ℕ} (h : a = b)
    (ha : a < l.length) : l.get ⟨a, ha⟩ = l.get ⟨b, h ▸ ha⟩ := by
  subst h
  rfl

theorem lowerEdgeCount_spec (l : List ℚ) (t : ℚ) :
    ∀ (m i : ℕ),
      (∀ k, k < m → pyGet l ((i : ℤ) + k) = .ok t) →
      (∃ v, pyGet l ((i : ℤ) + m) = .ok v ∧ v ≠ t) →
      lowerEdgeCount l t i = .ok m := by
  intro m
  induction m with
  | zero =>
    intro i _ hstop
    obtain ⟨v, hv, hvt⟩ := hstop
    rw [show (i : ℤ) + ((0 : ℕ) : ℤ) = (i : ℤ) by push_cast; ring] at hv
    have hb := pyGet_ok_bounds hv
    have hilen : i < l.length := by omega
    rw [pyGet_inbounds (by omega) (by omega)] at hv
    injection hv with hv
    have hne : l.get ⟨i, hilen⟩ ≠ t := by
      intro hc
      apply hvt
      rw [← hv, get_index_congr l (show ((i : ℤ)).toNat = i by omega)]
      exact hc
    rw [lowerEdgeCount, dif_pos hilen, if_neg hne]
  | succ m ih =>
    intro i hrun hstop
    have h0 := hrun 0 (by omega)
    rw [show (i : ℤ) + ((0 : ℕ) : ℤ) = (i : ℤ) by push_cast; ring] at h0
    have hb := pyGet_ok_bounds h0
    have hilen : i < l.length := by omega
    rw [pyGet_inbounds (by omega) (by omega)] at h0
    injection h0 with h0
    have hget : l.get ⟨i, hilen⟩ = t := by
      rw [← h0, get_index_congr l (show ((i : ℤ)).toNat = i by omega)]
    rw [lowerEdgeCount, dif_pos hilen, if_pos hget]
    have hrec : lowerEdgeCount l t (i + 1) = .ok m := by
      apply ih
      · intro k hk
        have h2 := hrun (k + 1) (by omega)
        rw [show (i : ℤ) + ((k + 1 : ℕ) : ℤ) = ((i + 1 : ℕ) : ℤ) + (k : ℤ)
          by push_cast; ring] at h2
        exact h2
      · obtain ⟨v, hv, hvt⟩ := hstop
        refine ⟨v, ?_, hvt⟩
        rw [show ((i + 1 : ℕ) : ℤ) + ((m : ℕ) : ℤ) = (i : ℤ) + ((m + 1 : ℕ) : ℤ)
          by push_cast; ring]
        exact hv
    rw [hrec]
    rfl

theorem upperEdgeCount_spec (l : List ℚ) (t : ℚ) :
    ∀ (m : ℕ) (j : ℤ),
      (∀ k : ℕ, k < m → pyGet l (j - k) = .ok t) →
      (∃ v, pyGet l (j - m) = .ok v ∧ v ≠ t) →
      upperEdgeCount l t j = .ok m := by
  intro m
  induction m with
  | zero =>
    intro j _ hstop
    obtain ⟨v, hv, hvt⟩ := hstop
    rw [show j - ((0 : ℕ) : ℤ) = j by push_cast; ring] at hv
    have hb := pyGet_ok_bounds hv
    rw [upperEdgeCount, dif_pos (by omega)]
    simp only [hv]
    rw [if_neg hvt]
  | succ m ih =>
    intro j hrun hstop
    have h0 := hrun 0 (by omega)
    rw [show j - ((0 : ℕ) : ℤ) = j by push_cast; ring] at h0
    have hb := pyGet_ok_bounds h0
    rw [upperEdgeCount, dif_pos (by omega)]
    simp only [h0]
    rw [if_pos trivial]
    have hrec : upperEdgeCount l t (j - 1) = .ok m := by
      apply ih
      · intro k hk
        have h2 := hrun (k + 1) (by omega)
        rw [show j - ((k + 1 : ℕ) : ℤ) = j - 1 - (k : ℤ) by push_cast; ring] at h2
        exact h2
      · obtain ⟨v, hv, hvt⟩ := hstop
        refine ⟨v, ?_, hvt⟩
        rw [show j - 1 - ((m : ℕ) : ℤ) = j - ((m + 1 : ℕ) : ℤ) by push_cast; ring]
        exact hv
    rw [hrec]
    rfl

theorem pLe_mono (t : ℚ) : ∀ v w : ℚ, v ≤ w →
    decide (w ≤ t) = true → decide (v ≤ t) = true := by
  intro v w hvw h
  simp only [decide_eq_true_eq] at h ⊢
  exact le_trans hvw h

theorem pLt_mono (t : ℚ) : ∀ v w : ℚ, v ≤ w →
    decide (w < t) = true → decide (v < t) = true := by
  intro v w hvw h
  simp only [decide_eq_true_eq] at h ⊢
  exact lt_of_le_of_lt hvw h

theorem sorted_get_lt_iff {l : List ℚ} (hs : l.Sorted (· ≤ ·)) (t : ℚ)
    {k : ℕ} (hk : k < l.length) :
    l.get ⟨k, hk⟩ < t ↔ k < l.countP (fun v => decide (v < t)) := by
  have h := sorted_get_iff_countP (pLt_mono t) hs hk
  simpa using h

theorem sorted_get_le_iff {l : List ℚ} (hs : l.Sorted (· ≤ ·)) (t : ℚ)
    {k : ℕ} (hk : k < l.length) :
    l.get ⟨k, hk⟩ ≤ t ↔ k < l.countP (fun v => decide (v ≤ t)) := by
  have h := sorted_get_iff_countP (pLe_mono t) hs hk
  simpa using h

theorem sorted_get_eq_iff {l : List ℚ} (hs : l.Sorted (· ≤ ·)) (t : ℚ)
    {k : ℕ} (hk : k < l.length) :
    l.get ⟨k, hk⟩ = t ↔
      (l.countP (fun v => decide (v < t)) ≤ k ∧
        k < l.countP (fun v => decide (v < t)) +
          l.countP (fun v => decide (v = t))) := by
  have hlt := sorted_get_lt_iff hs t hk
  have hle := sorted_get_le_iff hs t hk
  have hsplit := countP_le_split l t
  constructor
  · intro h
    constructor
    · by_contra hc
      exact absurd ((hlt).mpr (by omega)) (by rw [h]; exact lt_irrefl t)
    · have : l.get ⟨k, hk⟩ ≤ t := le_of_eq h
      have := hle.mp this
      omega
  · intro ⟨ha, hb⟩
    have h1 : ¬ (l.get ⟨k, hk⟩ < t) := fun hc => by
      have := hlt.mp hc
      omega
    have h2 : l.get ⟨k, hk⟩ ≤ t := hle.mpr (by omega)
    exact le_antisymm h2 (le_of_not_lt h1)

theorem lowerEdgeCount_sorted {l : List ℚ} (hs : l.Sorted (· ≤ ·)) (t : ℚ)
    (hgt : ∃ v ∈ l, t < v) :
    lowerEdgeCount l t (l.countP fun v => decide (v < t)) =
      .ok (l.countP fun v => decide (v = t)) := by
  have hpos : 0 < l.countP (fun v => decide (t < v)) := by
    apply List.countP_pos_iff.mpr
    obtain ⟨v, hv, hvt⟩ := hgt
    exact ⟨v, hv, by simpa using hvt⟩
  have htot := countP_le_add_gt l t
  have hsplit := countP_le_split l t
  have hstop_lt : l.countP (fun v => decide (v < t)) +
      l.countP (fun v => decide (v = t)) < l.length := by omega
  apply lowerEdgeCount_spec
  · intro k hk
    have hkl : l.countP (fun v => decide (v < t)) + k < l.length := by omega
    rw [pyGet_inbounds (by omega) (by omega)]
    congr 1
    rw [get_index_congr l (show (((l.countP fun v => decide (v < t) : ℕ) : ℤ) +
      (k : ℤ)).toNat = l.countP (fun v => decide (v < t)) + k by omega)]
    exact (sorted_get_eq_iff hs t hkl).mpr ⟨by omega, by omega⟩
  · refine ⟨l.get ⟨l.countP (fun v => decide (v < t)) +
        l.countP (fun v => decide (v = t)), hstop_lt⟩, ?_, ?_⟩
    · rw [pyGet_inbounds (by omega) (by omega),
        get_index_congr l (show (((l.countP fun v => decide (v < t) : ℕ) : ℤ) +
          ((l.countP fun v => decide (v = t) : ℕ) : ℤ)).toNat =
          l.countP (fun v => decide (v < t)) +
            l.countP (fun v => decide (v = t)) by omega)]
    · intro hc
      have := (sorted_get_eq_iff hs t hstop_lt).mp hc
      omega

theorem upperEdgeCount_sorted {l : List ℚ} (hs : l.Sorted (· ≤ ·)) (t : ℚ)
    (hlt : ∃ v ∈ l, v < t) :
    upperEdgeCount l t (((l.countP fun v => decide (v ≤ t)) : ℤ) - 1) =
      .ok (l.countP fun v => decide (v = t)) := by
  have hpos : 0 < l.countP (fun v => decide (v < t)) := by
    apply List.countP_pos_iff.mpr
    obtain ⟨v, hv, hvt⟩ := hlt
    exact ⟨v, hv, by simpa using hvt⟩
  have hsplit := countP_le_split l t
  have hlen : l.countP (fun v => decide (v ≤ t)) ≤ l.length :=
    List.countP_le_length _
  apply upperEdgeCount_spec
  · intro k hk
    have hkl : l.countP (fun v => decide (v ≤ t)) - 1 - k < l.length := by omega
    rw [pyGet_inbounds (by omega) (by omega)]
    congr 1
    rw [get_index_congr l
      (show ((((l.countP fun v => decide (v ≤ t) : ℕ) : ℤ) - 1 - (k : ℤ)).toNat) =
        l.countP (fun v => decide (v ≤ t)) - 1 - k by omega)]
    apply (sorted_get_eq_iff hs t (by omega)).mpr
    constructor
    · omega
    · omega
  · have hstop_lt : l.countP (fun v => decide (v < t)) - 1 < l.length := by omega
    refine ⟨l.get ⟨l.countP (fun v => decide (v < t)) - 1, hstop_lt⟩, ?_, ?_⟩
    · rw [pyGet_inbounds (by omega) (by omega)]
      congr 1
      rw [get_index_congr l
        (show ((((l.countP fun v => decide (v ≤ t) : ℕ) : ℤ) - 1 -
          ((l.countP fun v => decide (v = t) : ℕ) : ℤ)).toNat) =
          l.countP (fun v => decide (v < t)) - 1 by omega)]
    · intro hc
      have := (sorted_get_eq_iff hs t hstop_lt).mp hc
      omega

/-- Facts about a slice of the sorted eigenvalue array taken inside the
searchsorted window: its length is determined by its bounds, it stays
sorted, and its members lie within `[-edge, edge]`. -/
theorem slice_window_facts {V : Type _} {evs : List ℚ} {eps : List V}
    {edge : ℚ} (hsort : evs.Sorted (· ≤ ·))
    (hlen_ep : eps.length = evs.length) {a b : ℤ} {n : ℕ}
    (ha0 : 0 ≤ a) (hab : a ≤ b) (hbl : b ≤ evs.length)
    (halow : ((searchsorted_left evs (-edge)) : ℤ) ≤ a)
    (hbup : b ≤ ((searchsorted_right evs edge) : ℤ)) (hn : b - a = n) :
    (pySlice evs a b).length = n ∧ (pySlice eps a b).length = n ∧
      (pySlice evs a b).Sorted (· ≤ ·) ∧
      ∀ v ∈ pySlice evs a b, -edge ≤ v ∧ v ≤ edge := by
  refine ⟨?_, ?_, ?_, ?_⟩
  · rw [pySlice_length evs ha0 hab hbl]
    omega
  · rw [pySlice_length eps ha0 hab (by omega)]
    omega
  · exact List.Pairwise.sublist (pySlice_sublist evs a b) hsort
  · intro v hv
    have he1 : searchsorted_left evs (-edge) =
        evs.countP fun q => decide (q < -edge) := rfl
    have he2 : searchsorted_right evs edge =
        evs.countP fun q => decide (q ≤ edge) := rfl
    rw [he1] at halow
    rw [he2] at hbup
    obtain ⟨k, hk, hka, hkb, hget⟩ :=
      pySlice_mem_pos ha0 (by omega) hbl v hv
    constructor
    · by_contra hc
      have h1 : evs.get ⟨k, hk⟩ < -edge := by
        rw [hget]
        exact not_le.mp hc
      have h2 := (sorted_get_lt_iff hsort (-edge) hk).mp h1
      omega
    · have h2 : k < evs.countP fun q => decide (q ≤ edge) := by omega
      have h1 := (sorted_get_le_iff hsort edge hk).mpr h2
      rw [hget] at h1
      exact h1

/-- Inversion of a successful `first_brillouin_zone` call: whatever the
inputs, a returned selection has exactly `n_values` eigenvalues and
eigenvectors, the eigenvalues are sorted ascending, and each lies in
`[-edge, edge]`. -/
theorem first_brillouin_zone_ok_inv {V : Type _} {l : List ℚ} {w : List V}
    {n : ℕ} {edge : ℚ} {vals : List ℚ} {vecs : List V}
    (h : first_brillouin_zone l w n edge = .ok (vals, vecs)) :
    vals.length = n ∧ vecs.length = n ∧ vals.Sorted (· ≤ ·) ∧
      ∀ v ∈ vals, -edge ≤ v ∧ v ≤ edge := by
  have hsort : (((l.zip w).insertionSort pairLe).map Prod.fst).Sorted (· ≤ ·) :=
    List.pairwise_map.mpr (List.sorted_insertionSort pairLe (l.zip w))
  simp only [first_brillouin_zone, Bind.bind, Except.bind] at h
  set evs := ((l.zip w).insertionSort pairLe).map Prod.fst with hevs
  set eps := ((l.zip w).insertionSort pairLe).map Prod.snd with heps
  have hlen_ep : eps.length = evs.length := by
    rw [hevs, heps]
    simp
  have hup_le : searchsorted_right evs edge ≤ evs.length :=
    List.countP_le_length _
  cases hl : lowerEdgeCount evs (-edge) (searchsorted_left evs (-edge)) with
  | error e =>
    rw [hl] at h
    simp at h
  | ok nLow =>
  cases hu : upperEdgeCount evs edge (((searchsorted_right evs edge) : ℤ) - 1)
    with
  | error e =>
    rw [hl, hu] at h
    simp at h
  | ok nUp =>
  rw [hl, hu] at h
  simp only [] at h
  split_ifs at h with h1 h2 h3
  · injection h with h'
    rw [Prod.mk.injEq] at h'
    obtain ⟨hv, hw⟩ := h'
    subst hv
    subst hw
    exact slice_window_facts hsort hlen_ep (by omega) (by omega) (by omega)
      (by omega) (by omega) (by omega)
  · injection h with h'
    rw [Prod.mk.injEq] at h'
    obtain ⟨hv, hw⟩ := h'
    subst hv
    subst hw
    exact slice_window_facts hsort hlen_ep (by omega) (by omega) (by omega)
      (by omega) (by omega) (by omega)
  · injection h with h'
    rw [Prod.mk.injEq] at h'
    obtain ⟨hv, hw⟩ := h'
    subst hv
    subst hw
    exact slice_window_facts hsort hlen_ep (by omega) (by omega) (by omega)
      (by omega) (by omega) (by omega)

/-- Positional pairing through the spectral selector: whenever
`first_brillouin_zone` returns, the value list and the vector list are the
two projections of one and the same sublist (in fact a contiguous slice)
of the co-sorted `(eigenvalue, eigenvector)` pair list — the source slices
`evs` and `eps` with identical bounds in every branch. -/
theorem first_brillouin_zone_pairs {V : Type _} {l : List ℚ} {w : List V}
    {n : ℕ} {edge : ℚ} {vals : List ℚ} {vecs : List V}
    (h : first_brillouin_zone l w n edge = .ok (vals, vecs)) :
    ∃ pairs : List (ℚ × V),
      pairs.Sublist ((l.zip w).insertionSort pairLe) ∧
      vals = pairs.map Prod.fst ∧ vecs = pairs.map Prod.snd := by
  simp only [first_brillouin_zone, Bind.bind, Except.bind] at h
  set evs := ((l.zip w).insertionSort pairLe).map Prod.fst with hevs
  set eps := ((l.zip w).insertionSort pairLe).map Prod.snd with heps
  cases hl : lowerEdgeCount evs (-edge) (searchsorted_left evs (-edge)) with
  | error e =>
    rw [hl] at h
    simp at h
  | ok nLow =>
  cases hu : upperEdgeCount evs edge (((searchsorted_right evs edge) : ℤ) - 1)
    with
  | error e =>
    rw [hl, hu] at h
    simp at h
  | ok nUp =>
  rw [hl, hu] at h
  simp only [] at h
  split_ifs at h with h1 h2 h3
  · injection h with h'
    rw [Prod.mk.injEq] at h'
    obtain ⟨hv, hw⟩ := h'
    subst hv
    subst hw
    refine ⟨pySlice ((l.zip w).insertionSort pairLe)
        ((searchsorted_left evs (-edge) : ℤ) + nLow)
        ((searchsorted_right evs edge : ℤ) - nUp),
      pySlice_sublist _ _ _, ?_, ?_⟩
    · rw [hevs]
      exact pySlice_map Prod.fst _ _ _
    · rw [heps]
      exact pySlice_map Prod.snd _ _ _
  · injection h with h'
    rw [Prod.mk.injEq] at h'
    obtain ⟨hv, hw⟩ := h'
    subst hv
    subst hw
    refine ⟨pySlice ((l.zip w).insertionSort pairLe)
        (searchsorted_left evs (-edge) : ℤ)
        ((searchsorted_right evs edge : ℤ) - nUp),
      pySlice_sublist _ _ _, ?_, ?_⟩
    · rw [hevs]
      exact pySlice_map Prod.fst _ _ _
    · rw [heps]
      exact pySlice_map Prod.snd _ _ _
  · injection h with h'
    rw [Prod.mk.injEq] at h'
    obtain ⟨hv, hw⟩ := h'
    subst hv
    subst hw
    refine ⟨pySlice ((l.zip w).insertionSort pairLe)
        ((searchsorted_left evs (-edge) : ℤ) + nLow)
        (searchsorted_right evs edge : ℤ),
      pySlice_sublist _ _ _, ?_, ?_⟩
    · rw [hevs]
      exact pySlice_map Prod.fst _ _ _
    · rw [heps]
      exact pySlice_map Prod.snd _ _ _

theorem setMany_length {V : Type _} (w : List V) (idxs : List ℕ)
    (vals : List V) : (setMany w idxs vals).length = w.length := by
  unfold setMany
  suffices h : ∀ (ps : List (ℕ × V)) (acc : List V),
      (ps.foldl (fun a p => a.set p.1 p.2) acc).length = acc.length by
    apply h
  intro ps
  induction ps with
  | nil => intro acc; rfl
  | cons p ps ih =>
    intro acc
    rw [List.foldl_cons, ih, List.length_set]

theorem applyGroups_length {V : Type _} [Inhabited V] (gs : List V → List V) :
    ∀ (groups : List (List ℕ)) (w : List V),
      (applyGroups gs w groups).length = w.length := by
  intro groups
  induction groups with
  | nil => intro w; rfl
  | cons g rest ih =>
    intro w
    have hstep : applyGroups gs w (g :: rest) =
        applyGroups gs (setMany w g (gs (g.map fun k => w.getD k default)))
          rest := rfl
    rw [hstep, ih, setMany_length]

/-- `setMany` leaves every position outside the index list unchanged. -/
theorem setMany_getD_not_mem {V : Type _} [Inhabited V] (w : List V)
    (idxs : List ℕ) (vals : List V) (k : ℕ) (hk : k ∉ idxs) :
    (setMany w idxs vals).getD k default = w.getD k default := by
  unfold setMany
  suffices h : ∀ (ps : List (ℕ × V)) (acc : List V),
      (∀ p ∈ ps, p.1 ≠ k) →
      (ps.foldl (fun a p => a.set p.1 p.2) acc).getD k default =
        acc.getD k default by
    apply h
    intro p hp
    exact fun hc => hk (hc ▸ (List.of_mem_zip hp).1)
  intro ps
  induction ps with
  | nil => intro acc _; rfl
  | cons p ps ih =>
    intro acc hne
    rw [List.foldl_cons, ih _ (fun q hq => hne q (List.mem_cons_of_mem p hq))]
    have hp1 : p.1 ≠ k := hne p (List.mem_cons_self p ps)
    rw [List.getD_eq_getElem?_getD, List.getD_eq_getElem?_getD,
      List.getElem?_set_ne hp1]

/-- Degenerate-group orthogonalisation is group-local: `applyGroups`
leaves every position that belongs to no group unchanged. -/
theorem applyGroups_getD_not_mem {V : Type _} [Inhabited V]
    (gs : List V → List V) :
    ∀ (groups : List (List ℕ)) (w : List V) (k : ℕ),
      (∀ g ∈ groups, k ∉ g) →
      (applyGroups gs w groups).getD k default = w.getD k default := by
  intro groups
  induction groups with
  | nil => intro w k _; rfl
  | cons g rest ih =>
    intro w k hk
    have hstep : applyGroups gs w (g :: rest) =
        applyGroups gs (setMany w g (gs (g.map fun i => w.getD i default)))
          rest := rfl
    rw [hstep, ih _ k (fun q hq => hk q (List.mem_cons_of_mem g hq)),
      setMany_getD_not_mem _ _ _ k (hk g (List.mem_cons_self g rest))]

/-- **C3**: whenever `diagonalise` returns without raising, it returns
exactly `dimension` eigenvalues (real rationals by construction), each of
absolute value at most the rounded `0.5 * frequency` (the first Brillouin
zone edge at the configured precision), sorted ascending, with exactly as
many eigenvectors, index-aligned (the pairing is positional throughout the
selection, and degenerate-group orthogonalisation rewrites vectors only at
the positions of their own group). -/
theorem diagonalise_spec {V : Type _} [Inhabited V] (gs : List V → List V)
    (rawVals : List CC) (rawVecs : List V) (hdim : ℕ) (freq : ℚ) (dec : ℕ)
    (vals : List ℚ) (vecs : List V)
    (h : diagonalise gs rawVals rawVecs hdim freq dec = .ok (vals, vecs)) :
    vals.length = hdim ∧ vals.Sorted (· ≤ ·) ∧
      (∀ v ∈ vals, |v| ≤ roundDec dec (0.5 * freq)) ∧ vecs.length = hdim ∧
      ∃ pairs : List (ℚ × V),
        pairs.Sublist (((rawVals.map fun z => roundDec dec z.re).zip
          rawVecs).insertionSort pairLe) ∧
        vals = pairs.map Prod.fst ∧
        vecs = applyGroups gs (pairs.map Prod.snd) (find_duplicates vals) ∧
        ∀ k : ℕ, (∀ g ∈ find_duplicates vals, k ∉ g) →
          vecs.getD k default = (pairs.map Prod.snd).getD k default := by
  simp only [diagonalise, Bind.bind, Except.bind] at h
  cases hfb : first_brillouin_zone (rawVals.map fun z => roundDec dec z.re)
      rawVecs hdim (roundDec dec (0.5 * freq)) with
  | error e =>
    rw [hfb] at h
    simp at h
  | ok p =>
    obtain ⟨v0, w0⟩ := p
    rw [hfb] at h
    simp only [] at h
    injection h with h'
    rw [Prod.mk.injEq] at h'
    obtain ⟨hv, hw⟩ := h'
    subst hv
    subst hw
    obtain ⟨hlen, hlenw, hsorted, hbounds⟩ := first_brillouin_zone_ok_inv hfb
    obtain ⟨pairs, hsub, hvp, hwp⟩ := first_brillouin_zone_pairs hfb
    refine ⟨hlen, hsorted, ?_, ?_, pairs, hsub, hvp, ?_, ?_⟩
    · intro v hv
      obtain ⟨h1, h2⟩ := hbounds v hv
      exact abs_le.mpr ⟨h1, h2⟩
    · rw [applyGroups_length gs (find_duplicates v0) w0, hlenw]
    · rw [← hwp]
    · intro k hk
      rw [← hwp]
      exact applyGroups_getD_not_mem gs (find_duplicates v0) w0 k hk

/-- Witness for C3 at a concrete successful `diagonalise` run. -/
theorem diagonalise_spec_witness :
    diagonalise id [(⟨0, 0⟩ : CC)] [vecFix] 1 1 1 = .ok ([0], [vecFix]) ∧
    (([0] : List ℚ).length = 1 ∧ ([0] : List ℚ).Sorted (· ≤ ·) ∧
      (∀ v ∈ ([0] : List ℚ), |v| ≤ roundDec 1 (0.5 * 1)) ∧
      ([vecFix] : List (Fin 2 → Fin 1 → CC)).length = 1 ∧
      ∃ pairs : List (ℚ × (Fin 2 → Fin 1 → CC)),
        pairs.Sublist ((([(⟨0, 0⟩ : CC)].map fun z => roundDec 1 z.re).zip
          [vecFix]).insertionSort pairLe) ∧
        ([0] : List ℚ) = pairs.map Prod.fst ∧
        ([vecFix] : List (Fin 2 → Fin 1 → CC)) =
          applyGroups id (pairs.map Prod.snd) (find_duplicates [0]) ∧
        ∀ k : ℕ, (∀ g ∈ find_duplicates ([0] : List ℚ), k ∉ g) →
          ([vecFix] : List (Fin 2 → Fin 1 → CC)).getD k default =
            (pairs.map Prod.snd).getD k default) :=
  ⟨diagonalise_fix,
   diagonalise_spec id [⟨0, 0⟩] [vecFix] 1 1 1 [0] [vecFix] diagonalise_fix⟩

theorem searchsorted_left_eq (l : List ℚ) (x : ℚ) :
    searchsorted_left l x = l.countP fun v => decide (v < x) := rfl

theorem searchsorted_right_eq (l : List ℚ) (x : ℚ) :
    searchsorted_right l x = l.countP fun v => decide (v ≤ x) := rfl

/-- On a sorted value array with matching vectors, whose values are not all
at or below `-edge` nor all at or above `edge`, `first_brillouin_zone`
reduces to the post-loop branch structure with the loop counters evaluated
to the exact multiplicities of `-edge` and `edge`. -/
theorem fbz_sorted_unfold {V : Type _} (l : List ℚ) (w : List V) (n : ℕ)
    (edge : ℚ) (hs : l.Sorted (· ≤ ·)) (hlen : l.length = w.length)
    (hlo : ∃ v ∈ l, -edge < v) (hhi : ∃ v ∈ l, v < edge) :
    first_brillouin_zone l w n edge =
      (if (((l.countP fun v => decide (v ≤ edge)) : ℤ) -
            ((l.countP fun v => decide (v = edge)) : ℕ) -
            (((l.countP fun v => decide (v < -edge)) : ℤ) +
              ((l.countP fun v => decide (v = -edge)) : ℕ)) = (n : ℤ)) then
        Except.ok
          (pySlice l
            (((l.countP fun v => decide (v < -edge)) : ℤ) +
              ((l.countP fun v => decide (v = -edge)) : ℕ))
            (((l.countP fun v => decide (v ≤ edge)) : ℤ) -
              ((l.countP fun v => decide (v = edge)) : ℕ)),
           pySlice w
            (((l.countP fun v => decide (v < -edge)) : ℤ) +
              ((l.countP fun v => decide (v = -edge)) : ℕ))
            (((l.countP fun v => decide (v ≤ edge)) : ℤ) -
              ((l.countP fun v => decide (v = edge)) : ℕ)))
      else if (((l.countP fun v => decide (v ≤ edge)) : ℤ) -
            ((l.countP fun v => decide (v = edge)) : ℕ) -
            (((l.countP fun v => decide (v < -edge)) : ℤ) +
              ((l.countP fun v => decide (v = -edge)) : ℕ)) +
            ((l.countP fun v => decide (v = -edge)) : ℕ) = (n : ℤ)) then
        Except.ok
          (pySlice l ((l.countP fun v => decide (v < -edge)) : ℤ)
            (((l.countP fun v => decide (v ≤ edge)) : ℤ) -
              ((l.countP fun v => decide (v = edge)) : ℕ)),
           pySlice w ((l.countP fun v => decide (v < -edge)) : ℤ)
            (((l.countP fun v => decide (v ≤ edge)) : ℤ) -
              ((l.countP fun v => decide (v = edge)) : ℕ)))
      else if (((l.countP fun v => decide (v ≤ edge)) : ℤ) -
            ((l.countP fun v => decide (v = edge)) : ℕ) -
            (((l.countP fun v => decide (v < -edge)) : ℤ) +
              ((l.countP fun v => decide (v = -edge)) : ℕ)) +
            ((l.countP fun v => decide (v = edge)) : ℕ) = (n : ℤ)) then
        Except.ok
          (pySlice l
            (((l.countP fun v => decide (v < -edge)) : ℤ) +
              ((l.countP fun v => decide (v = -edge)) : ℕ))
            ((l.countP fun v => decide (v ≤ edge)) : ℤ),
           pySlice w
            (((l.countP fun v => decide (v < -edge)) : ℤ) +
              ((l.countP fun v => decide (v = -edge)) : ℕ))
            ((l.countP fun v => decide (v ≤ edge)) : ℤ))
      else Except.error PyErr.runtimeError) := by
  have hzip : (l.zip w).map Prod.fst = l := List.map_fst_zip l w (le_of_eq hlen)
  have hzsnd : (l.zip w).map Prod.snd = w :=
    List.map_snd_zip l w (le_of_eq hlen.symm)
  have hzsort : (l.zip w).Sorted pairLe := by
    have h1 : List.Pairwise (· ≤ ·) ((l.zip w).map Prod.fst) := by
      rw [hzip]
      exact hs
    exact (List.pairwise_map (f := Prod.fst)).mp h1
  have hss : (l.zip w).insertionSort pairLe = l.zip w :=
    hzsort.insertionSort_eq
  simp only [first_brillouin_zone, hss, hzip, hzsnd, searchsorted_left_eq,
    searchsorted_right_eq]
  rw [lowerEdgeCount_sorted hs (-edge) hlo, upperEdgeCount_sorted hs edge hhi]
  rfl

/-- **C2**, amended: for every sorted, precision-rounded eigenvalue array
with matching eigenvectors, requested count and rounded edge — provided
`0 < edge` and the array contains a value strictly above `-edge` and one
strictly below `edge` (without these the two edge-counting loops can run
off the array and raise `IndexError`, and at `edge = 0` the two edges
coincide and the code's centre count departs from the policy) —
`first_brillouin_zone` selects pairs by exactly the three-branch tie-break
policy on the interior / lower-edge / upper-edge multiplicities, raising
`RuntimeError` in every remaining case, and every successful selection has
exactly `n_values` eigenvalues and eigenvectors. -/
theorem first_brillouin_zone_policy {V : Type _} (l : List ℚ) (w : List V)
    (n : ℕ) (edge : ℚ) (hs : l.Sorted (· ≤ ·)) (hlen : l.length = w.length)
    (hpos : 0 < edge) (hlo : ∃ v ∈ l, -edge < v) (hhi : ∃ v ∈ l, v < edge) :
    (first_brillouin_zone l w n edge =
      (if l.countP (fun v => decide (-edge < v) && decide (v < edge)) = n then
        Except.ok
          (pySlice l ((l.countP fun v => decide (v ≤ -edge)) : ℤ)
            ((l.countP fun v => decide (v < edge)) : ℤ),
           pySlice w ((l.countP fun v => decide (v ≤ -edge)) : ℤ)
            ((l.countP fun v => decide (v < edge)) : ℤ))
      else if l.countP (fun v => decide (-edge < v) && decide (v < edge)) +
          l.countP (fun v => decide (v = -edge)) = n then
        Except.ok
          (pySlice l ((l.countP fun v => decide (v < -edge)) : ℤ)
            ((l.countP fun v => decide (v < edge)) : ℤ),
           pySlice w ((l.countP fun v => decide (v < -edge)) : ℤ)
            ((l.countP fun v => decide (v < edge)) : ℤ))
      else if l.countP (fun v => decide (-edge < v) && decide (v < edge)) +
          l.countP (fun v => decide (v = edge)) = n then
        Except.ok
          (pySlice l ((l.countP fun v => decide (v ≤ -edge)) : ℤ)
            ((l.countP fun v => decide (v ≤ edge)) : ℤ),
           pySlice w ((l.countP fun v => decide (v ≤ -edge)) : ℤ)
            ((l.countP fun v => decide (v ≤ edge)) : ℤ))
      else Except.error PyErr.runtimeError)) ∧
    (∀ vals vecs, first_brillouin_zone l w n edge = .ok (vals, vecs) →
      vals.length = n ∧ vecs.length = n) := by
  constructor
  · rw [fbz_sorted_unfold l w n edge hs hlen hlo hhi]
    have hU := countP_le_split l edge
    have hL := countP_le_split l (-edge)
    have hI := countP_lt_decompose l (show -edge < edge by linarith)
    by_cases h1 :
        l.countP (fun v => decide (-edge < v) && decide (v < edge)) = n
    · rw [if_pos (by omega), if_pos h1,
        show (((l.countP fun v => decide (v < -edge)) : ℤ) +
          ((l.countP fun v => decide (v = -edge)) : ℕ)) =
          ((l.countP fun v => decide (v ≤ -edge)) : ℤ) by omega,
        show (((l.countP fun v => decide (v ≤ edge)) : ℤ) -
          ((l.countP fun v => decide (v = edge)) : ℕ)) =
          ((l.countP fun v => decide (v < edge)) : ℤ) by omega]
    · rw [if_neg (by omega), if_neg h1]
      by_cases h2 :
          l.countP (fun v => decide (-edge < v) && decide (v < edge)) +
            l.countP (fun v => decide (v = -edge)) = n
      · rw [if_pos (by omega), if_pos h2,
          show (((l.countP fun v => decide (v ≤ edge)) : ℤ) -
            ((l.countP fun v => decide (v = edge)) : ℕ)) =
            ((l.countP fun v => decide (v < edge)) : ℤ) by omega]
      · rw [if_neg (by omega), if_neg h2]
        by_cases h3 :
            l.countP (fun v => decide (-edge < v) && decide (v < edge)) +
              l.countP (fun v => decide (v = edge)) = n
        · rw [if_pos (by omega), if_pos h3,
            show (((l.countP fun v => decide (v < -edge)) : ℤ) +
              ((l.countP fun v => decide (v = -edge)) : ℕ)) =
              ((l.countP fun v => decide (v ≤ -edge)) : ℤ) by omega]
        · rw [if_neg (by omega), if_neg h3]
  · intro vals vecs h
    obtain ⟨ha, hb, _, _⟩ := first_brillouin_zone_ok_inv h
    exact ⟨ha, hb⟩

/-- Witness for C2's amended theorem on the concrete sorted array `[0]`
with edge `1/2`, requested count 1: the interior branch fires. -/
theorem first_brillouin_zone_policy_witness :
    (([(0 : ℚ)]).Sorted (· ≤ ·) ∧ ([(0 : ℚ)]).length = [vecFix].length ∧
      (0 : ℚ) < 1 / 2 ∧ (∃ v ∈ [(0 : ℚ)], -(1 / 2) < v) ∧
      (∃ v ∈ [(0 : ℚ)], v < 1 / 2)) ∧
    first_brillouin_zone [(0 : ℚ)] [vecFix] 1 (1 / 2) =
      (if ([(0 : ℚ)]).countP
          (fun v => decide (-(1 / 2) < v) && decide (v < 1 / 2)) = 1 then
        Except.ok
          (pySlice [(0 : ℚ)]
            ((([(0 : ℚ)]).countP fun v => decide (v ≤ -(1 / 2))) : ℤ)
            ((([(0 : ℚ)]).countP fun v => decide (v < 1 / 2)) : ℤ),
           pySlice [vecFix]
            ((([(0 : ℚ)]).countP fun v => decide (v ≤ -(1 / 2))) : ℤ)
            ((([(0 : ℚ)]).countP fun v => decide (v < 1 / 2)) : ℤ))
      else if ([(0 : ℚ)]).countP
          (fun v => decide (-(1 / 2) < v) && decide (v < 1 / 2)) +
          ([(0 : ℚ)]).countP (fun v => decide (v = -(1 / 2))) = 1 then
        Except.ok
          (pySlice [(0 : ℚ)]
            ((([(0 : ℚ)]).countP fun v => decide (v < -(1 / 2))) : ℤ)
            ((([(0 : ℚ)]).countP fun v => decide (v < 1 / 2)) : ℤ),
           pySlice [vecFix]
            ((([(0 : ℚ)]).countP fun v => decide (v < -(1 / 2))) : ℤ)
            ((([(0 : ℚ)]).countP fun v => decide (v < 1 / 2)) : ℤ))
      else if ([(0 : ℚ)]).countP
          (fun v => decide (-(1 / 2) < v) && decide (v < 1 / 2)) +
          ([(0 : ℚ)]).countP (fun v => decide (v = 1 / 2)) = 1 then
        Except.ok
          (pySlice [(0 : ℚ)]
            ((([(0 : ℚ)]).countP fun v => decide (v ≤ -(1 / 2))) : ℤ)
            ((([(0 : ℚ)]).countP fun v => decide (v ≤ 1 / 2)) : ℤ),
           pySlice [vecFix]
            ((([(0 : ℚ)]).countP fun v => decide (v ≤ -(1 / 2))) : ℤ)
            ((([(0 : ℚ)]).countP fun v => decide (v ≤ 1 / 2)) : ℤ))
      else Except.error PyErr.runtimeError) :=
  ⟨⟨by simp, rfl, by norm_num, ⟨0, by simp, by norm_num⟩,
    ⟨0, by simp, by norm_num⟩⟩,
   (first_brillouin_zone_policy [(0 : ℚ)] [vecFix] 1 (1 / 2) (by simp) rfl
      (by norm_num) ⟨0, by simp, by norm_num⟩ ⟨0, by simp, by norm_num⟩).1⟩

theorem lowerEdgeCount_overrun_b :
    lowerEdgeCount [(-1 : ℚ), -1] (-1) 2 = .error .indexError := by
  rw [lowerEdgeCount]
  norm_num

theorem lowerEdgeCount_overrun_a :
    lowerEdgeCount [(-1 : ℚ), -1] (-1) 0 = .error .indexError := by
  rw [lowerEdgeCount]
  norm_num
  rw [lowerEdgeCount]
  norm_num [lowerEdgeCount_overrun_b, Except.map]

/-- **C2**, counterexample to the claim as stated: on the sorted rounded
array `[-1, -1]` with matching vectors, `n_values = 1` and `edge = 1`, all
values sit on the lower zone edge, so the tie-break policy's remaining
case applies and the claim demands a `RuntimeError`; the code's
`while eigenvalues[lower + n_lower_edge] == -edge` loop instead runs past
the end of the array and raises `IndexError`. -/
theorem first_brillouin_zone_index_error_counterexample :
    first_brillouin_zone [(-1 : ℚ), -1] [vecFix, vecFix] 1 1 =
      .error PyErr.indexError ∧
    PyErr.indexError ≠ PyErr.runtimeError := by
  constructor
  · unfold first_brillouin_zone
    norm_num [List.insertionSort, List.orderedInsert, pairLe,
      searchsorted_left_eq, searchsorted_right_eq, Bind.bind, Except.bind,
      lowerEdgeCount_overrun_a]
  · decide

/-- **C9**: on a sorted eigenvalue array (with matching eigenvectors) that
contains a value strictly above `-edge` and a value strictly below `edge`,
the two edge-counting loops of `first_brillouin_zone` stay within the
array: each returns normally with exactly the multiplicity of its edge
value (every index it reads is in `[0, len)` in our `pyGet` model, which
faults on out-of-range reads), and the function as a whole either returns
a selection or raises only the documented zone-resolution
`RuntimeError`. -/
theorem first_brillouin_zone_loop_safety {V : Type _} (l : List ℚ)
    (w : List V) (n : ℕ) (edge : ℚ) (hs : l.Sorted (· ≤ ·))
    (hlen : l.length = w.length) (hlo : ∃ v ∈ l, -edge < v)
    (hhi : ∃ v ∈ l, v < edge) :
    lowerEdgeCount l (-edge) (searchsorted_left l (-edge)) =
      .ok (l.countP fun v => decide (v = -edge)) ∧
    upperEdgeCount l edge (((searchsorted_right l edge) : ℤ) - 1) =
      .ok (l.countP fun v => decide (v = edge)) ∧
    ∀ e, first_brillouin_zone l w n edge = .error e →
      e = PyErr.runtimeError := by
  refine ⟨?_, ?_, ?_⟩
  · rw [searchsorted_left_eq]
    exact lowerEdgeCount_sorted hs (-edge) hlo
  · rw [searchsorted_right_eq]
    exact upperEdgeCount_sorted hs edge hhi
  · intro e he
    rw [fbz_sorted_unfold l w n edge hs hlen hlo hhi] at he
    split_ifs at he <;> simp_all

/-- Witness for C9 on the concrete sorted array `[0]` with edge `1/2`. -/
theorem first_brillouin_zone_loop_safety_witness :
    (([(0 : ℚ)]).Sorted (· ≤ ·) ∧ ([(0 : ℚ)]).length = [vecFix].length ∧
      (∃ v ∈ [(0 : ℚ)], -(1 / 2) < v) ∧ (∃ v ∈ [(0 : ℚ)], v < 1 / 2)) ∧
    (lowerEdgeCount [(0 : ℚ)] (-(1 / 2))
        (searchsorted_left [(0 : ℚ)] (-(1 / 2))) =
      .ok (([(0 : ℚ)]).countP fun v => decide (v = -(1 / 2))) ∧
    upperEdgeCount [(0 : ℚ)] (1 / 2)
        (((searchsorted_right [(0 : ℚ)] (1 / 2)) : ℤ) - 1) =
      .ok (([(0 : ℚ)]).countP fun v => decide (v = 1 / 2)) ∧
    ∀ e, first_brillouin_zone [(0 : ℚ)] [vecFix] 1 (1 / 2) = .error e →
      e = PyErr.runtimeError) :=
  ⟨⟨by simp, rfl, ⟨0, by simp, by norm_num⟩, ⟨0, by simp, by norm_num⟩⟩,
   first_brillouin_zone_loop_safety [(0 : ℚ)] [vecFix] 1 (1 / 2) (by simp)
     rfl ⟨0, by simp, by norm_num⟩ ⟨0, by simp, by norm_num⟩⟩

/-- Witness for C10: a concrete full `eigensystem` run with `cexp` the
constant-one function (which satisfies the only property of the
exponential used, `cexp 0 = 1`). -/
theorem current_floquet_kets_at_zero_witness :
    ((fun _ : CC => (1 : CC)) 0 = 1) ∧ Odd 1 ∧
    @eigensystem 3 1 1 id none [⟨0, 0⟩] [vecOdd] 1 1 = .ok esOdd ∧
    current_floquet_kets (fun _ : CC => (1 : CC)) esOdd 0 =
      .ok fun j a => (esOdd.initial_floquet_bras j a).conj :=
  ⟨rfl, ⟨0, by norm_num⟩, eigensystem_fix_odd,
   current_floquet_kets_at_zero (fun _ => 1) rfl ⟨0, by norm_num⟩ id none
     [⟨0, 0⟩] [vecOdd] 1 1 esOdd eigensystem_fix_odd⟩

/-! ### Lemmas for the duplicate-run claim -/

theorem find_duplicates_sorted_eq {l : List ℚ} (hs : l.Sorted (· ≤ ·)) :
    find_duplicates l =
      (splitGroups ((l.dedup.map fun v => l.indexOf v).drop 1)
        l.length).filter fun g => decide (1 < g.length) := by
  unfold find_duplicates splitGroups
  rw [List.Sorted.insertionSort_eq hs]

theorem runLengths_ne_nil (x : ℚ) (t : List ℚ) : runLengths (x :: t) ≠ [] := by
  cases t with
  | nil => simp [runLengths]
  | cons y r =>
    show (match runLengths (y :: r) with
          | [] => [1]
          | k :: ks => if x = y then (k + 1) :: ks else 1 :: (k :: ks)) ≠ []
    cases h : runLengths (y :: r) with
    | nil => simp
    | cons k ks =>
      by_cases hxy : x = y
      · simp [hxy]
      · simp [hxy]

theorem runLengths_peel (x : ℚ) (r : List ℚ) (hr : ∀ y ∈ r, x ≠ y) :
    ∀ k : ℕ, runLengths (List.replicate (k + 1) x ++ r) =
      (k + 1) :: runLengths r := by
  intro k
  induction k with
  | zero =>
    cases r with
    | nil => rfl
    | cons y t =>
      show (match runLengths (y :: t) with
            | [] => [1]
            | k :: ks => if x = y then (k + 1) :: ks else 1 :: (k :: ks)) =
        1 :: runLengths (y :: t)
      cases h : runLengths (y :: t) with
      | nil => exact absurd h (runLengths_ne_nil y t)
      | cons k0 ks =>
        show (if x = y then (k0 + 1) :: ks else 1 :: (k0 :: ks)) = 1 :: k0 :: ks
        rw [if_neg (hr y (List.mem_cons_self y t))]
  | succ k ih =>
    have hinner : List.replicate (k + 1) x ++ r =
        x :: (List.replicate k x ++ r) := by
      rw [List.replicate_succ, List.cons_append]
    rw [hinner] at ih
    have hsucc : List.replicate (k + 1 + 1) x ++ r =
        x :: x :: (List.replicate k x ++ r) := by
      rw [List.replicate_succ, List.replicate_succ, List.cons_append,
        List.cons_append]
    rw [hsucc]
    show (match runLengths (x :: (List.replicate k x ++ r)) with
          | [] => [1]
          | k :: ks => if x = x then (k + 1) :: ks else 1 :: (k :: ks)) =
      (k + 1 + 1) :: runLengths r
    cases h : runLengths (x :: (List.replicate k x ++ r)) with
    | nil => exact absurd h (runLengths_ne_nil x _)
    | cons k0 ks =>
      rw [h] at ih
      injection ih with h1 h2
      show (if x = x then (k0 + 1) :: ks else 1 :: (k0 :: ks)) = _
      rw [if_pos rfl, h1, h2]

theorem dedup_replicate_append (x : ℚ) (r : List ℚ) (hxr : x ∉ r) :
    ∀ k : ℕ, (List.replicate (k + 1) x ++ r).dedup = x :: r.dedup := by
  intro k
  induction k with
  | zero =>
    show (x :: r).dedup = x :: r.dedup
    exact List.dedup_cons_of_not_mem hxr
  | succ k ih =>
    rw [List.replicate_succ, List.cons_append]
    rw [List.dedup_cons_of_mem]
    · exact ih
    · apply List.mem_append_left
      exact List.mem_replicate.mpr ⟨by omega, rfl⟩

theorem indexOf_replicate_append (x v : ℚ) (r : List ℚ) (hvx : v ≠ x) :
    ∀ k : ℕ, (List.replicate k x ++ r).indexOf v = k + r.indexOf v := by
  intro k
  induction k with
  | zero => simp
  | succ k ih =>
    rw [List.replicate_succ, List.cons_append, List.indexOf_cons]
    have hbx : (x == v) = false := by
      simp only [beq_eq_false_iff_ne]
      exact fun hc => hvx hc.symm
    rw [hbx]
    show (List.replicate k x ++ r).indexOf v + 1 = k + 1 + r.indexOf v
    rw [ih]
    omega

theorem indexOf_head_replicate (x : ℚ) (r : List ℚ) (k : ℕ) :
    (List.replicate (k + 1) x ++ r).indexOf x = 0 := by
  rw [List.replicate_succ, List.cons_append, List.indexOf_cons]
  simp

theorem dedup_head_sorted :
    ∀ (r : List ℚ), r.Sorted (· ≤ ·) → (h : r ≠ []) →
      ∃ s, r.dedup = r.head h :: s := by
  intro r
  induction r with
  | nil => intro _ h; exact absurd rfl h
  | cons y t ih =>
    intro hs _
    by_cases hyt : y ∈ t
    · have htne : t ≠ [] := List.ne_nil_of_mem hyt
      obtain ⟨s, hseptember⟩ := ih hs.of_cons htne
      have hhead : t.head htne = y := by
        apply le_antisymm
        · cases t with
          | nil => exact absurd rfl htne
          | cons th tt =>
            rcases List.mem_cons.mp hyt with h1 | h1
            · rw [h1]
              exact le_rfl
            · exact List.rel_of_sorted_cons hs.of_cons y h1
        · exact List.rel_of_sorted_cons hs (t.head htne) (List.head_mem htne)
      rw [List.dedup_cons_of_mem hyt, hseptember, hhead]
      exact ⟨s, rfl⟩
    · rw [List.dedup_cons_of_not_mem hyt]
      exact ⟨t.dedup, rfl⟩

theorem splitGroups_shift (cs : List ℕ) (k m : ℕ) :
    splitGroups ((0 :: cs).map (k + ·)) (k + m) =
      List.range' 0 k :: (splitGroups cs m).map (List.map (k + ·)) := by
  unfold splitGroups
  rw [List.map_cons, Nat.add_zero, List.cons_append, List.zip_cons_cons,
    List.map_cons]
  congr 1
  · have h1 : (k :: List.map (k + ·) cs) = List.map (k + ·) (0 :: cs) := by
      rw [List.map_cons, Nat.add_zero]
    have h2 : (List.map (k + ·) cs ++ [k + m]) =
        List.map (k + ·) (cs ++ [m]) := by
      rw [List.map_append]
      rfl
    rw [h1, h2, List.zip_map, List.map_map, List.map_map]
    apply List.map_congr_left
    intro p _
    obtain ⟨a, b⟩ := p
    show List.range' (k + a) ((k + b) - (k + a)) =
      List.map (k + ·) (List.range' a (b - a))
    rw [List.map_add_range']
    congr 1
    omega

theorem rangesFrom_shift :
    ∀ (ks : List ℕ) (t s : ℕ),
      rangesFrom ks (t + s) = (rangesFrom ks s).map (List.map (t + ·)) := by
  intro ks
  induction ks with
  | nil => intro t s; rfl
  | cons k rest ih =>
    intro t s
    show List.range' (t + s) k :: rangesFrom rest (t + s + k) =
      List.map (t + ·) (List.range' s k) :: (rangesFrom rest (s + k)).map _
    rw [List.map_add_range', show t + s + k = t + (s + k) by omega, ih]

theorem filter_long_map_shift (gs : List (List ℕ)) (k : ℕ) :
    ((gs.map (List.map (k + ·))).filter fun g => decide (1 < g.length)) =
      (gs.filter fun g => decide (1 < g.length)).map (List.map (k + ·)) := by
  rw [List.filter_map]
  congr 1
  apply List.filter_congr
  intro g _
  simp [Function.comp]

theorem dropWhile_head_false {α : Type _} {p : α → Bool} :
    ∀ (l : List α) (a : α) (t : List α), l.dropWhile p = a :: t →
      p a = false := by
  intro l
  induction l with
  | nil =>
    intro a t h
    simp [List.dropWhile] at h
  | cons b l ih =>
    intro a t h
    by_cases hpb : p b = true
    · rw [List.dropWhile_cons_of_pos hpb] at h
      exact ih a t h
    · rw [List.dropWhile_cons_of_neg hpb] at h
      injection h with h1 h2
      rw [← h1]
      simpa using hpb

/-- Structural core of the duplicate-run claim: on a sorted list,
`find_duplicates` computes exactly the index ranges of the maximal runs of
equal values that have length at least two (the `dupRunsSpec` reference).
Strong induction on a length bound, peeling the first maximal run. -/
theorem find_duplicates_runs_aux :
    ∀ (m : ℕ) (l : List ℚ), l.length ≤ m → l.Sorted (· ≤ ·) →
      find_duplicates l = dupRunsSpec l := by
  intro m
  induction m with
  | zero =>
    intro l hl _
    have h0 : l = [] := List.eq_nil_of_length_eq_zero (by omega)
    subst h0
    rfl
  | succ m ih =>
    intro l hl hs
    rcases l with _ | ⟨x, xs⟩
    · rfl
    have hxle : ∀ y ∈ x :: xs, x ≤ y := by
      intro y hy
      rcases List.mem_cons.mp hy with h1 | h1
      · exact le_of_eq h1.symm
      · exact List.rel_of_sorted_cons hs y h1
    obtain ⟨k, r, hld, hrgt, hrs⟩ :
        ∃ (k : ℕ) (r : List ℚ),
          x :: xs = List.replicate (k + 1) x ++ r ∧
          (∀ y ∈ r, x < y) ∧ r.Sorted (· ≤ ·) := by
      have hpos : 0 < ((x :: xs).takeWhile fun q => q == x).length := by
        rw [List.takeWhile_cons_of_pos (by simp)]
        simp
      obtain ⟨k, hk⟩ :
          ∃ k, ((x :: xs).takeWhile fun q => q == x).length = k + 1 :=
        ⟨((x :: xs).takeWhile fun q => q == x).length - 1, by omega⟩
      have htake : ((x :: xs).takeWhile fun q => q == x) =
          List.replicate (((x :: xs).takeWhile fun q => q == x).length) x := by
        apply List.eq_replicate.mpr
        refine ⟨rfl, ?_⟩
        intro b hb
        exact eq_of_beq (List.mem_takeWhile_imp (p := fun q => q == x) hb)
      refine ⟨k, (x :: xs).dropWhile fun q => q == x, ?_, ?_, ?_⟩
      · conv_lhs => rw [← List.takeWhile_append_dropWhile
          (p := fun q => q == x) (l := x :: xs)]
        rw [htake, hk]
      · intro y hy
        cases hcase : (x :: xs).dropWhile fun q => q == x with
        | nil =>
          rw [hcase] at hy
          exact absurd hy (List.not_mem_nil y)
        | cons h0 t0 =>
          rw [hcase] at hy
          have hh2 := dropWhile_head_false (x :: xs) h0 t0 hcase
          have hh0ne : h0 ≠ x := by simpa using hh2
          have hh0mem : h0 ∈ ((x :: xs).dropWhile fun q => q == x) := by
            rw [hcase]
            exact List.mem_cons_self _ _
          have hxh0 : x ≤ h0 :=
            hxle h0 ((List.dropWhile_sublist _).subset hh0mem)
          have hxlt : x < h0 :=
            lt_of_le_of_ne hxh0 (fun hc => hh0ne hc.symm)
          have hsorted : (h0 :: t0).Sorted (· ≤ ·) := by
            rw [← hcase]
            exact List.Pairwise.sublist (List.dropWhile_sublist _) hs
          rcases List.mem_cons.mp hy with h1 | h1
          · rw [h1]
            exact hxlt
          · exact lt_of_lt_of_le hxlt (List.rel_of_sorted_cons hsorted y h1)
      · exact List.Pairwise.sublist (List.dropWhile_sublist _) hs
    have hxnr : x ∉ r := fun hc => lt_irrefl x (hrgt x hc)
    have hxner : ∀ y ∈ r, x ≠ y := fun y hy => ne_of_lt (hrgt y hy)
    have hsl : (List.replicate (k + 1) x ++ r).Sorted (· ≤ ·) := hld ▸ hs
    have hlen : (x :: xs).length = (k + 1) + r.length := by
      rw [hld, List.length_append, List.length_replicate]
    have hrm : r.length ≤ m := by
      rw [hlen] at hl
      omega
    have hIHr := ih r hrm hrs
    have hmap :
        (r.dedup.map fun v => (List.replicate (k + 1) x ++ r).indexOf v) =
          r.dedup.map fun v => (k + 1) + r.indexOf v := by
      apply List.map_congr_left
      intro v hv
      exact indexOf_replicate_append x v r
        (fun hc => hxner v (List.mem_dedup.mp hv) hc.symm) (k + 1)
    have hcuts : (r.dedup.map fun v => (k + 1) + r.indexOf v) =
        (r.dedup.map fun v => r.indexOf v).map ((k + 1) + ·) := by
      rw [List.map_map]
      rfl
    rw [hld]
    rw [find_duplicates_sorted_eq hsl, dedup_replicate_append x r hxnr k]
    simp only [List.map_cons]
    rw [indexOf_head_replicate x r k, hmap, List.drop_one, List.tail_cons,
      hcuts, List.length_append, List.length_replicate]
    rcases r with _ | ⟨h0, t0⟩
    · simp only [List.dedup_nil, List.map_nil, List.length_nil, Nat.add_zero]
      unfold dupRunsSpec
      rw [runLengths_peel x [] (by simp) k]
      rfl
    · obtain ⟨s, hds0⟩ :=
        dedup_head_sorted (h0 :: t0) hrs (List.cons_ne_nil h0 t0)
      have hds : (h0 :: t0).dedup = h0 :: s := hds0
      have hidx0 : (h0 :: t0).indexOf h0 = 0 := by
        simp [List.indexOf_cons]
      have hinner : ((h0 :: t0).dedup.map fun v => (h0 :: t0).indexOf v) =
          0 :: s.map fun v => (h0 :: t0).indexOf v := by
        rw [hds]
        simp only [List.map_cons]
        rw [hidx0]
      have hfd : ((splitGroups (s.map fun v => (h0 :: t0).indexOf v)
            (h0 :: t0).length).filter fun g => decide (1 < g.length)) =
          dupRunsSpec (h0 :: t0) := by
        rw [← hIHr, find_duplicates_sorted_eq hrs, hinner, List.drop_one,
          List.tail_cons]
      rw [hinner]
      rw [splitGroups_shift (s.map fun v => (h0 :: t0).indexOf v) (k + 1)
        (h0 :: t0).length]
      rw [List.filter_cons]
      rw [filter_long_map_shift
        (splitGroups (s.map fun v => (h0 :: t0).indexOf v)
          (h0 :: t0).length) (k + 1)]
      rw [hfd]
      unfold dupRunsSpec
      rw [runLengths_peel x (h0 :: t0) hxner k]
      show _ = ((List.range' 0 (k + 1) ::
        rangesFrom (runLengths (h0 :: t0)) (0 + (k + 1))).filter fun g =>
          decide (1 < g.length))
      rw [show 0 + (k + 1) = (k + 1) + 0 by omega]
      rw [rangesFrom_shift (runLengths (h0 :: t0)) (k + 1) 0]
      rw [List.filter_cons]
      rw [filter_long_map_shift (rangesFrom (runLengths (h0 :: t0)) 0) (k + 1)]

theorem find_duplicates_eq_dupRunsSpec {l : List ℚ}
    (hs : l.Sorted (· ≤ ·)) : find_duplicates l = dupRunsSpec l :=
  find_duplicates_runs_aux l.length l le_rfl hs

theorem roundDec_example :
    [(1 : ℚ), 2001 / 1000, 2003 / 1000, 1999 / 1000, 3].map (roundDec 2) =
      [1, 2, 2, 2, 3] := by
  simp only [List.map_cons, List.map_nil]
  unfold roundDec roundHalfEven
  norm_num

theorem find_duplicates_ex1 :
    find_duplicates [(1 : ℚ), 2, 2, 2, 3] = [[1, 2, 3]] := by
  unfold find_duplicates
  norm_num [List.insertionSort, List.orderedInsert, List.dedup,
    List.indexOf, List.findIdx, List.findIdx.go, List.range',
    Bool.cond_eq_ite, beq_iff_eq]

theorem find_duplicates_ex2 :
    find_duplicates [(1 : ℚ), 1, 2, 2, 3, 4, 4] =
      [[0, 1], [2, 3], [5, 6]] := by
  unfold find_duplicates
  norm_num [List.insertionSort, List.orderedInsert, List.dedup,
    List.indexOf, List.findIdx, List.findIdx.go, List.range',
    Bool.cond_eq_ite, beq_iff_eq]

theorem find_duplicates_ex3 : find_duplicates [(1 : ℚ), 2, 3] = [] := by
  unfold find_duplicates
  norm_num [List.insertionSort, List.orderedInsert, List.dedup,
    List.indexOf, List.findIdx, List.findIdx.go, List.range']

/-- **C8** For every sorted (already-rounded) array, `find_duplicates`
yields exactly one index group per maximal run of equal values of length at
least 2, in ascending order of position, each group holding exactly the
indices of that run, with indices of values occurring once never yielded
(the `dupRunsSpec` reference semantics); in particular, on
`[1, 2.001, 2.003, 1.999, 3]` rounded to 2 decimals it yields exactly the
single group `[1, 2, 3]`, on `[1, 1, 2, 2, 3, 4, 4]` the three groups
`[0, 1]`, `[2, 3]`, `[5, 6]`, and on strictly distinct values no groups. -/
theorem find_duplicates_run_groups (l : List ℚ) (hs : l.Sorted (· ≤ ·)) :
    find_duplicates l = dupRunsSpec l ∧
      find_duplicates ([(1 : ℚ), 2001 / 1000, 2003 / 1000, 1999 / 1000,
        3].map (roundDec 2)) = [[1, 2, 3]] ∧
      find_duplicates [(1 : ℚ), 1, 2, 2, 3, 4, 4] =
        [[0, 1], [2, 3], [5, 6]] ∧
      find_duplicates [(1 : ℚ), 2, 3] = [] :=
  ⟨find_duplicates_eq_dupRunsSpec hs,
   by rw [roundDec_example]; exact find_duplicates_ex1,
   find_duplicates_ex2, find_duplicates_ex3⟩

theorem find_duplicates_run_groups_witness :
    ([(0 : ℚ)].Sorted (· ≤ ·)) ∧
      (find_duplicates [(0 : ℚ)] = dupRunsSpec [(0 : ℚ)] ∧
        find_duplicates ([(1 : ℚ), 2001 / 1000, 2003 / 1000, 1999 / 1000,
          3].map (roundDec 2)) = [[1, 2, 3]] ∧
        find_duplicates [(1 : ℚ), 1, 2, 2, 3, 4, 4] =
          [[0, 1], [2, 3], [5, 6]] ∧
        find_duplicates [(1 : ℚ), 2, 3] = []) :=
  ⟨List.sorted_singleton 0,
   find_duplicates_run_groups [(0 : ℚ)] (List.sorted_singleton 0)⟩

end Floq
